import Mathlib

/-!
Verification of the chunky embedded HTTP/1.1 server library
(`chunky.hpp`, `websocket.cpp`) against its natural-language
specification.  Every definition below is a shallow embedding of a
function of the C++ source; source locations are given in the doc
comments.  Machine integers are modelled as `Nat` (with explicit
`% 2 ^ 64` where the C++ works modulo `size_t`), byte streams as
`List Char` or `List Nat`, and fallible operations return `Option` or
`Except`.
-/

namespace Chunky

/-! ## Character helpers -/

/-- `std::isspace` in the default locale (used by `boost::algorithm::trim_left`
and by `operator>>` whitespace skipping). -/
def isSpaceC (c : Char) : Bool :=
  c = ' ' || c = '\t' || c = '\n' || c = '\x0b' || c = '\x0c' || c = '\r'

/-- A hexadecimal digit `[0-9A-Fa-f]`, the character class of the escape
regex in `HTTPTemplate::decode` (chunky.hpp:594). -/
def isHexDigitC (c : Char) : Bool :=
  ('0' ≤ c && c ≤ '9') || ('a' ≤ c && c ≤ 'f') || ('A' ≤ c && c ≤ 'F')

/-- Numeric value of a hexadecimal digit. -/
def hexVal (c : Char) : Nat :=
  if '0' ≤ c && c ≤ '9' then c.toNat - '0'.toNat
  else if 'a' ≤ c && c ≤ 'f' then c.toNat - 'a'.toNat + 10
  else if 'A' ≤ c && c ≤ 'F' then c.toNat - 'A'.toNat + 10
  else 0

/-! ## URI decoding (`HTTPTemplate::decode`, chunky.hpp:588-618)

The C++ loops an anchored regex search for
`^([^+%]*)(?:\+|(?:%([0-9A-Fa-f]{2})))`: each iteration copies the run of
ordinary characters, then converts one `+` to a space or one valid `%HH`
escape to its byte; when the anchored search fails — that is, when the
first special character of the remainder is a `%` not followed by two hex
digits — the entire remainder is copied verbatim and the loop stops.
Copying the ordinary-character run one character at a time is equivalent. -/

def decodeChars : List Char → List Char
  | [] => []
  | '+' :: r => ' ' :: decodeChars r
  | '%' :: c1 :: c2 :: r =>
    if isHexDigitC c1 && isHexDigitC c2 then
      Char.ofNat (16 * hexVal c1 + hexVal c2) :: decodeChars r
    else '%' :: c1 :: c2 :: r
  | '%' :: r => '%' :: r
  | c :: r => c :: decodeChars r

/-- `HTTPTemplate::decode` on a whole string. -/
def decode (s : String) : String :=
  ⟨decodeChars s.data⟩

/-- Modelled from the spec's words for the URI-decoding claim: `+` maps to
space, a valid `%HH` escape maps to the byte `HH`, and an invalid `%`
escape is left verbatim — with decoding continuing after it.  Used only
to compare the claimed behaviour with the source's `decode`. -/
def decodeSpecChars : List Char → List Char
  | [] => []
  | '+' :: r => ' ' :: decodeSpecChars r
  | '%' :: c1 :: c2 :: r =>
    if isHexDigitC c1 && isHexDigitC c2 then
      Char.ofNat (16 * hexVal c1 + hexVal c2) :: decodeSpecChars r
    else '%' :: decodeSpecChars (c1 :: c2 :: r)
  | '%' :: r => '%' :: decodeSpecChars r
  | c :: r => c :: decodeSpecChars r

/-- The string model of `decodeSpecChars`. -/
def decodeSpec (s : String) : String :=
  ⟨decodeSpecChars s.data⟩

/-- Every `%` in the list is followed by two hexadecimal digits. -/
def allEscapesValid : List Char → Bool
  | [] => true
  | '%' :: c1 :: c2 :: r => isHexDigitC c1 && isHexDigitC c2 && allEscapesValid r
  | '%' :: _ => false
  | _ :: r => allEscapesValid r

/-- Lexicographic comparison of character lists (by code point, which for
UTF-8 data agrees with the byte-wise `std::string::operator<`). -/
def lexLt : List Char → List Char → Bool
  | [], [] => false
  | [], _ :: _ => true
  | _ :: _, [] => false
  | a :: as, b :: bs => if a < b then true else if b < a then false else lexLt as bs

/-! ## Query parsing (`HTTPTemplate::parse_query`, chunky.hpp:620-637)

The C++ loops an anchored regex search for `^([^=&]+)(=)?([^&]*)&?` over a
`std::map<std::string, std::string>` (byte-wise key order): a parameter is
recorded only when the `=` group matched (`query[key] = value`, overwriting
an earlier entry with the same key), and the loop stops as soon as the
anchored search fails (which happens exactly when the remainder starts
with `=`, `&`-with-no-name, or is empty — the name group needs at least
one character). -/

/-- The query map, `std::map<std::string, std::string>` with the default
byte-wise order, as a sorted association list. -/
abbrev Query := List (String × String)

/-- `query[key] = value` — `std::map::operator[]` followed by assignment:
overwrite the entry with an equal key, otherwise insert in sorted order. -/
def qAssign : Query → String → String → Query
  | [], k, v => [(k, v)]
  | (k1, v1) :: t, k, v =>
    if k = k1 then (k1, v) :: t
    else if lexLt k.data k1.data then (k, v) :: (k1, v1) :: t
    else (k1, v1) :: qAssign t k v

/-- `std::map::find` for the query map. -/
def qFind : Query → String → Option String
  | [], _ => none
  | (k1, v1) :: t, k => if k1 = k then some v1 else qFind t k

/-- Characters allowed in the parameter-name group `[^=&]`. -/
def notParamSpecial (c : Char) : Bool := !(c = '=' || c = '&')

/-- Characters allowed in the value group `[^&]`. -/
def notAmp (c : Char) : Bool := !(c = '&')

/-- Consume the optional trailing `&` of one regex match. -/
def dropAmp : List Char → List Char
  | '&' :: t => t
  | l => l

/-- One step per regex match; the fuel argument only bounds the recursion
(each match consumes at least the one-character name group, so
`s.length + 1` steps always suffice). -/
def parseQueryGo : Nat → List Char → Query → Query
  | 0, _, q => q
  | fuel + 1, s, q =>
    if s.takeWhile notParamSpecial = [] then q
    else
      match s.dropWhile notParamSpecial with
      | '=' :: r =>
        parseQueryGo fuel (dropAmp (r.dropWhile notAmp))
          (qAssign q ⟨decodeChars (s.takeWhile notParamSpecial)⟩
            ⟨decodeChars (r.takeWhile notAmp)⟩)
      | rest => parseQueryGo fuel (dropAmp rest) q

/-- `HTTPTemplate::parse_query`. -/
def parseQuery (s : String) : Query :=
  parseQueryGo (s.data.length + 1) s.data []

/-! ## The header map (`HTTPTemplate::Headers`, chunky.hpp:250)

`std::map<std::string, std::string, detail::CaselessCompare>` where
`CaselessCompare` is `boost::ilexicographical_compare` (chunky.hpp:39-44):
lexicographic comparison of the uppercased characters.  We model the map
as an association list kept in the map's sorted order; `find` returns the
first (hence, in a map, the unique) caseless-equal entry. -/

/-- The key under which the map stores a header name: its uppercased
characters (`boost::is_iless` compares `toupper` of the characters). -/
def upKey (s : String) : List Char := s.data.map Char.toUpper

/-- `detail::CaselessCompare`: `boost::ilexicographical_compare`. -/
def ciLt (a b : String) : Bool := lexLt (upKey a) (upKey b)

/-- Caseless equivalence of keys — equality in the map's order. -/
def ciEq (a b : String) : Bool := upKey a == upKey b

/-- The header map as an association list in map order. -/
abbrev Headers := List (String × String)

/-- `Headers::find` (caseless): the first caseless-equal entry's value. -/
def findH : Headers → String → Option String
  | [], _ => none
  | (k1, v1) :: t, k => if ciEq k1 k then some v1 else findH t k

/-- The found-entry mutation `i->second += ", "; i->second += value` of
`read_request_headers` (chunky.hpp:814-818): append to the value of the
(unique) caseless-equal entry, leaving its key untouched. -/
def modH : Headers → String → String → Headers
  | [], _, _ => []
  | (k1, v1) :: t, k, v =>
    if ciEq k1 k then (k1, v1 ++ ", " ++ v) :: t else (k1, v1) :: modH t k v

/-- Replace the value of the (unique) caseless-equal entry, keeping the
stored key — the assignment half of `std::map::operator[]`. -/
def setH : Headers → String → String → Headers
  | [], _, _ => []
  | (k1, v1) :: t, k, v =>
    if ciEq k1 k then (k1, v) :: t else (k1, v1) :: setH t k v

/-- `std::map::insert` of a key not equivalent to any present key:
insert at the sorted position. -/
def insH : Headers → String → String → Headers
  | [], k, v => [(k, v)]
  | (k1, v1) :: t, k, v =>
    if ciLt k k1 then (k, v) :: (k1, v1) :: t
    else if ciEq k k1 then (k1, v1) :: t
    else (k1, v1) :: insH t k v

/-- The insert-or-coalesce step of `read_request_headers`
(chunky.hpp:813-820): find, append `", " + value` when present, insert
otherwise. -/
def coalesceH (hs : Headers) (k v : String) : Headers :=
  match findH hs k with
  | some _ => modH hs k v
  | none => insH hs k v

/-- `headers[k] = v` — `std::map::operator[]` followed by assignment. -/
def assignH (hs : Headers) (k v : String) : Headers :=
  match findH hs k with
  | some _ => setH hs k v
  | none => insH hs k v

/-- `std::map::erase(key)`: remove the (unique) caseless-equal entry. -/
def eraseH : Headers → String → Headers
  | [], _ => []
  | (k1, v1) :: t, k => if ciEq k1 k then t else (k1, v1) :: eraseH t k

/-- Number of entries whose key is caseless-equal to `k` (1 or 0 in a
well-formed map; `std::map::count`). -/
def countH : Headers → String → Nat
  | [], _ => 0
  | (k1, _) :: t, k => (if ciEq k1 k then 1 else 0) + countH t k

/-- `boost::algorithm::trim_left` of the header value (chunky.hpp:811). -/
def trimLeft (s : String) : String := ⟨s.data.dropWhile isSpaceC⟩

/-! ## Integer extraction

`read_length` parses Content-Length with `is >> requestBytes_`
(chunky.hpp:833) and `read_chunk_header` parses the chunk length with
`is >> std::hex >> requestBytes_` (chunky.hpp:862), `requestBytes_` being
a `size_t`.  `std::num_get` for an unsigned type skips whitespace, accepts
an optional sign (a `-` wraps the value modulo `2^64`, as `strtoull`
does), for hex an optional `0x` prefix, then requires at least one digit;
a value beyond `2^64 - 1` sets `failbit`. -/

/-- Value of a decimal digit string. -/
def decValue (l : List Char) : Nat :=
  l.foldl (fun a c => a * 10 + (c.toNat - '0'.toNat)) 0

/-- Value of a hexadecimal digit string. -/
def hexValue (l : List Char) : Nat :=
  l.foldl (fun a c => a * 16 + hexVal c) 0

/-- Split an optional leading sign, returning (negative?, rest). -/
def splitSign : List Char → Bool × List Char
  | '-' :: t => (true, t)
  | '+' :: t => (false, t)
  | t => (false, t)

/-- `istream >> (size_t&)` with decimal digits. -/
def parseSizeT (l : List Char) : Option Nat :=
  let l1 := l.dropWhile isSpaceC
  let s := splitSign l1
  let ds := s.2.takeWhile Char.isDigit
  if ds = [] then none
  else if decValue ds ≥ 2 ^ 64 then none
  else some (if s.1 then (2 ^ 64 - decValue ds) % 2 ^ 64 else decValue ds)

/-- Strip the optional `0x`/`0X` prefix of a hexadecimal numeral (consumed
only when a hex digit follows, as `strtoull` consumes it). -/
def stripHexPrefix : List Char → List Char
  | '0' :: 'x' :: c :: t => if isHexDigitC c then c :: t else '0' :: 'x' :: c :: t
  | '0' :: 'X' :: c :: t => if isHexDigitC c then c :: t else '0' :: 'X' :: c :: t
  | l => l

/-- `istream >> std::hex >> (size_t&)`. -/
def parseHexSizeT (l : List Char) : Option Nat :=
  let l1 := l.dropWhile isSpaceC
  let s := splitSign l1
  let ds := (stripHexPrefix s.2).takeWhile isHexDigitC
  if ds = [] then none
  else if hexValue ds ≥ 2 ^ 64 then none
  else some (if s.1 then (2 ^ 64 - hexValue ds) % 2 ^ 64 else hexValue ds)

/-! ## Request-side state (`HTTPTemplate`, chunky.hpp:639-662)

The request-side fields of one exchange, together with the byte source:
`sb` models the bytes currently held by `streambuf_`, `wire` the bytes the
wrapped `Stream` will deliver next (its put-back buffer followed by the
socket).  `read_until`/`load_until` are modelled as pulling exactly the
bytes up to the delimiter into `sb` (the real calls may over-read; every
consumer below only ever looks at `sb ++ wire`, except `read_some`, whose
streambuf-first step is observably the bytes previously over-read). -/

structure Exch where
  sb : List Char
  wire : List Char
  requestBytes : Nat
  chunksPending : Bool
  requestHeaders : Headers
deriving DecidableEq, Repr

/-- The error taxonomy (`chunky::errors`, chunky.hpp:46-53) together with
the underlying-stream end-of-file (`boost::asio::error::eof`). -/
inductive Err
  | invalidRequestLine
  | invalidRequestHeader
  | unsupportedHttpVersion
  | invalidContentLength
  | invalidChunkLength
  | invalidChunkDelimiter
  | eofErr
deriving DecidableEq, Repr

/-- Split a byte list at the first CRLF: the line before it and the bytes
after it. -/
def splitCRLF : List Char → Option (List Char × List Char)
  | [] => none
  | '\r' :: '\n' :: t => some ([], t)
  | c :: t =>
    match splitCRLF t with
    | none => none
    | some (l, r) => some (c :: l, r)

/-- Consume `n` bytes: from the streambuf first, then from the wire. -/
def consumeE (st : Exch) (n : Nat) : Exch :=
  if n ≤ st.sb.length then { st with sb := st.sb.drop n }
  else { st with sb := [], wire := st.wire.drop (n - st.sb.length) }

/-- `HTTPTemplate::get_line` (chunky.hpp:746-752): read through the next
CRLF and return the bytes before it; `none` models the `read_until`
failure when the stream ends without a CRLF. -/
def getLineE (st : Exch) : Option (String × Exch) :=
  match splitCRLF (st.sb ++ st.wire) with
  | none => none
  | some (l, _) => some (⟨l⟩, consumeE st (l.length + 2))

/-- Does the list contain the sequence CRLF CRLF? -/
def hasCRLF2 : List Char → Bool
  | '\r' :: '\n' :: '\r' :: '\n' :: _ => true
  | _ :: t => hasCRLF2 t
  | [] => false

/-- Index of the first occurrence of CRLF CRLF. -/
def findCRLF2 : List Char → Option Nat
  | '\r' :: '\n' :: '\r' :: '\n' :: _ => some 0
  | _ :: t => (findCRLF2 t).map (· + 1)
  | [] => none

/-- `load_until("\r\n\r\n")` (via `async_load_buffer`/`sync_load_buffer`,
chunky.hpp:677-691): ensure the streambuf holds bytes through a CRLF CRLF;
`none` models the read failing at end of stream. -/
def loadUntil2E (st : Exch) : Option Exch :=
  if hasCRLF2 st.sb then some st
  else
    match findCRLF2 (st.sb ++ st.wire) with
    | none => none
    | some i =>
      some { st with sb := (st.sb ++ st.wire).take (i + 4),
                     wire := (st.sb ++ st.wire).drop (i + 4) }

/-- `s.find_first_of(':')`. -/
def colonIdx : List Char → Option Nat
  | [] => none
  | ':' :: _ => some 0
  | _ :: t => (colonIdx t).map (· + 1)

/-- Split one header line at the first `:` and left-trim the value
(chunky.hpp:805-811); `none` when the line has no colon. -/
def parseHeaderLine (l : String) : Option (String × String) :=
  match colonIdx l.data with
  | none => none
  | some i => some (⟨l.data.take i⟩, trimLeft ⟨l.data.drop (i + 1)⟩)

/-- the loop body of `read_request_headers` (chunky.hpp:803-824), with a
fuel bound on the number of lines (each line consumes at least the two
CRLF bytes, so `totalLen st + 1` always suffices). -/
def readHeadersGo : Nat → Exch → Except Err Exch
  | 0, _ => .error .eofErr
  | fuel + 1, st =>
    match getLineE st with
    | none => .error .eofErr
    | some (line, st1) =>
      if line = "" then .ok st1
      else
        match parseHeaderLine line with
        | none => .error .invalidRequestHeader
        | some kv =>
          readHeadersGo fuel
            { st1 with requestHeaders := coalesceH st1.requestHeaders kv.1 kv.2 }

/-- Bytes still to be delivered. -/
def totalLen (st : Exch) : Nat := st.sb.length + st.wire.length

/-- `HTTPTemplate::read_request_headers` (chunky.hpp:803-824). -/
def readRequestHeadersE (st : Exch) : Except Err Exch :=
  readHeadersGo (totalLen st + 1) st

/-- `HTTPTemplate::read_chunk_header` (chunky.hpp:851-894): read the chunk
header line, parse the hexadecimal length; on the terminating zero-length
chunk, clear `requestChunksPending_`, restore the just-consumed CRLF
(`sungetc` twice), load through the empty line ending the trailer block,
skip the restored CRLF (`snextc` twice) and read the trailers with
`read_request_headers`. -/
def readChunkHeaderE (st : Exch) : Except Err Exch :=
  match getLineE st with
  | none => .error .eofErr
  | some (line, st1) =>
    match parseHexSizeT line.data with
    | none => .error .invalidChunkLength
    | some n =>
      if n = 0 then
        let st2 : Exch :=
          { st1 with requestBytes := 0, chunksPending := false,
                     sb := '\r' :: '\n' :: st1.sb }
        match loadUntil2E st2 with
        | none => .error .eofErr
        | some st3 => readRequestHeadersE { st3 with sb := st3.sb.drop 2 }
      else .ok { st1 with requestBytes := n }

/-- The body-framing decision of `HTTPTemplate::read_length`
(chunky.hpp:826-849): parse a present Content-Length into
`requestBytes_` — an unparsable value fails with `invalid_content_length`
before Transfer-Encoding is even looked at — then, when a
Transfer-Encoding header with value other than `"identity"` is present,
reset `requestBytes_` to 0 and set `requestChunksPending_`.  Returns the
resulting `(requestBytes_, requestChunksPending_)` pair. -/
def readLengthDecision (hs : Headers) : Except Err (Nat × Bool) :=
  match findH hs "content-length" with
  | some v =>
    match parseSizeT v.data with
    | none => .error .invalidContentLength
    | some n =>
      match findH hs "transfer-encoding" with
      | some tv => if tv ≠ "identity" then .ok (0, true) else .ok (n, false)
      | none => .ok (n, false)
  | none =>
    match findH hs "transfer-encoding" with
    | some tv => if tv ≠ "identity" then .ok (0, true) else .ok (0, false)
    | none => .ok (0, false)

/-- `HTTPTemplate::read_length` (chunky.hpp:826-849): apply the framing
decision and, in the chunked case, immediately read the first chunk
header. -/
def readLengthE (st : Exch) : Except Err Exch :=
  match readLengthDecision st.requestHeaders with
  | .error e => .error e
  | .ok (n, true) =>
    readChunkHeaderE { st with requestBytes := n, chunksPending := true }
  | .ok (n, false) => .ok { st with requestBytes := n }

/-- Result of one `read_some`: the error delivered to the handler (`none`
for success), the byte count delivered to the handler, and the state
afterwards. -/
structure ReadResult where
  err : Option Err
  nRead : Nat
  st : Exch
deriving DecidableEq, Repr

/-- `HTTPTemplate::read_some` / `async_read_some` (chunky.hpp:360-502;
the synchronous body is written to execute exactly the asynchronous
lambda).  Steps: (1) `buffer_copy(buffers, streambuf_.data(),
requestBytes_)` takes `min(buffer, streambuf, requestBytes_)` bytes from
the streambuf; (2) `boost::asio::read` with
`transfer_exactly(nBytesRead ? 0 : requestBytes_)` reads
`min(requestBytes_, buffer)` bytes from the stream when nothing came from
the streambuf; (3) when the buffer is non-null, chunks are pending and
`requestBytes_` hit 0, consume the chunk-delimiter CRLF (a non-empty line
is `invalid_chunk_delimiter`) and run `read_chunk_header`; (4) otherwise
report `eof` iff nothing was read into a non-null buffer.  Assumes the
exchange is already created (`requestMethod_` non-empty), the state in
which the body-read contract applies. -/
def readSomeE (st : Exch) (bufferSize : Nat) : ReadResult :=
  let n1 := if st.sb.isEmpty then 0
            else min bufferSize (min st.sb.length st.requestBytes)
  let st1 : Exch := { st with sb := st.sb.drop n1,
                              requestBytes := st.requestBytes - n1 }
  let want := if 0 < n1 then 0 else min st1.requestBytes bufferSize
  if want ≤ st1.wire.length then
    let st2 : Exch := { st1 with wire := st1.wire.drop want,
                                 requestBytes := st1.requestBytes - want }
    let nRead := n1 + want
    if 0 < bufferSize ∧ st2.chunksPending ∧ st2.requestBytes = 0 then
      match getLineE st2 with
      | none => ⟨some .eofErr, nRead, st2⟩
      | some (line, st3) =>
        if line ≠ "" then ⟨some .invalidChunkDelimiter, nRead, st3⟩
        else
          match readChunkHeaderE st3 with
          | .error e => ⟨some e, nRead, st3⟩
          | .ok st4 => ⟨none, nRead, st4⟩
    else if nRead = 0 ∧ 0 < bufferSize then ⟨some .eofErr, 0, st2⟩
    else ⟨none, nRead, st2⟩
  else
    ⟨some .eofErr, n1, { st1 with wire := [] }⟩

/-! ## Response encoder (`HTTPTemplate`, chunky.hpp:896-1018) -/

/-- The response-side fields of one exchange: `responseStatus_`,
`responseHeaders_`, `responseTrailers_`, `responseBytes_`,
`responseChunked_`, plus the request method the framing decision consults.
The constructor (chunky.hpp:257-264) starts with `responseBytes_ = 0` and
`responseChunked_ = false`. -/
structure Resp where
  status : Nat
  method : String
  headers : Headers
  trailers : Headers
  responseBytes : Nat
  chunked : Bool
deriving DecidableEq, Repr

/-- The reason-phrase table of `write_status` (chunky.hpp:959-1001);
an unknown code yields the empty string. -/
def reason (status : Nat) : String :=
  match status with
  | 100 => "Continue"
  | 101 => "Switching Protocols"
  | 200 => "OK"
  | 201 => "Created"
  | 202 => "Accepted"
  | 203 => "Non-Authoritative Information"
  | 204 => "No Content"
  | 205 => "Reset Content"
  | 206 => "Partial Content"
  | 300 => "Multiple Choices"
  | 301 => "Moved Permanently"
  | 302 => "Found"
  | 303 => "See Other"
  | 304 => "Not Modified"
  | 305 => "Use Proxy"
  | 307 => "Temporary Redirect"
  | 400 => "Bad Request"
  | 401 => "Unauthorized"
  | 402 => "Payment Required"
  | 403 => "Forbidden"
  | 404 => "Not Found"
  | 405 => "Method Not Allowed"
  | 406 => "Not Acceptable"
  | 407 => "Proxy Authentication Required"
  | 408 => "Request Timeout"
  | 409 => "Conflict"
  | 410 => "Gone"
  | 411 => "Length Required"
  | 412 => "Precondition Failed"
  | 413 => "Payload Too Large"
  | 414 => "URI Too Long"
  | 415 => "Unsupported Media Type"
  | 416 => "Range Not Satisfiable"
  | 417 => "Expectation Failed"
  | 426 => "Upgrade Required"
  | 500 => "Internal Server Error"
  | 501 => "Not Implemented"
  | 502 => "Bad Gateway"
  | 503 => "Service Unavailable"
  | 504 => "Gateway Timeout"
  | 505 => "HTTP Version Not Supported"
  | _ => ""

/-- `write_status` (chunky.hpp:958-1008): `HTTP/1.1 %d %s\r\n`. -/
def writeStatus (status : Nat) : String :=
  "HTTP/1.1 " ++ toString status ++ " " ++ reason status ++ "\r\n"

/-- `write_headers` (chunky.hpp:1010-1018): each entry as
`Name: Value\r\n` in map order, then a blank line. -/
def renderHeaders (hs : Headers) : String :=
  (hs.map (fun p => p.1 ++ ": " ++ p.2 ++ "\r\n")).foldr (· ++ ·) "\r\n"

/-- Lowercase hexadecimal digit. -/
def hexDigitChar (n : Nat) : Char :=
  if n < 10 then Char.ofNat ('0'.toNat + n) else Char.ofNat ('a'.toNat + n - 10)

/-- Hex digits of `n`, most significant first (fuel-bounded; `n` itself
always suffices since the argument at least halves each step). -/
def hexDigitsGo : Nat → Nat → List Char
  | 0, _ => []
  | _ + 1, 0 => []
  | fuel + 1, n => hexDigitsGo fuel (n / 16) ++ [hexDigitChar (n % 16)]

/-- `boost::format("%x")`. -/
def toHex (n : Nat) : String :=
  if n = 0 then "0" else ⟨hexDigitsGo (n + 1) n⟩

/-- The `Date` insertion of `prepare_write_prefix` (chunky.hpp:901-909):
set a `Date` header when none is present.  The formatted wall-clock
string is passed in as `date`. -/
def setDate (hs : Headers) (date : String) : Headers :=
  if (findH hs "date").isSome then hs else assignH hs "Date" date

/-- Does the response carry a body (chunky.hpp:918-921): status ≥ 200,
status ∉ {204, 304}, and the request method is not `HEAD`? -/
def bodyAllowedB (status : Nat) (method : String) : Bool :=
  decide (200 ≤ status) && !(status = 204) && !(status = 304) && !(method = "HEAD")

/-- The body-framing decision of `prepare_write_prefix`
(chunky.hpp:911-933): only for responses that carry a body, choose
chunked when a Transfer-Encoding other than `"identity"` is set (erasing
any Content-Length), or when no Content-Length is set (then insert
`Transfer-Encoding: chunked`). -/
def framing (r : Resp) : Resp :=
  if bodyAllowedB r.status r.method then
    match findH r.headers "transfer-encoding" with
    | some tv =>
      if tv ≠ "identity" then
        { r with chunked := true, headers := eraseH r.headers "content-length" }
      else if countH r.headers "content-length" = 0 then
        { r with chunked := true,
                 headers := assignH r.headers "Transfer-Encoding" "chunked" }
      else r
    | none =>
      if countH r.headers "content-length" = 0 then
        { r with chunked := true,
                 headers := assignH r.headers "Transfer-Encoding" "chunked" }
      else r
  else r

/-- `prepare_write_prefix` (chunky.hpp:896-943): on the first write
(`responseBytes_ == 0`) set the `Date` header, run the framing decision
and emit status line plus headers; at every write append the chunk header
`%x\r\n` when chunked.  Returns the prefix string and the updated
response state. -/
def prepareWritePrefix (r : Resp) (date : String) (nBytes : Nat) :
    String × Resp :=
  if r.responseBytes = 0 then
    let r2 := framing { r with headers := setDate r.headers date }
    (writeStatus r2.status ++ renderHeaders r2.headers ++
      (if r2.chunked then toHex nBytes ++ "\r\n" else ""), r2)
  else ((if r.chunked then toHex nBytes ++ "\r\n" else ""), r)

/-- `prepare_write_suffix` (chunky.hpp:945-956): when chunked, a CRLF
after a non-empty chunk, and the trailer block after the final empty
chunk. -/
def prepareWriteSuffix (r : Resp) (nBytes : Nat) : String :=
  if r.chunked then
    if nBytes ≠ 0 then "\r\n" else renderHeaders r.trailers
  else ""

/-- `write_some` (chunky.hpp:550-572): the bytes put on the wire for one
body write, and the updated response state (`responseBytes_ += nBytes`).
`body` is the handler's buffer contents. -/
def writeSomeWire (r : Resp) (date : String) (body : String) :
    String × Resp :=
  let p := prepareWritePrefix r date body.length
  (p.1 ++ body ++ prepareWriteSuffix p.2 body.length,
   { p.2 with responseBytes := p.2.responseBytes + body.length })

/-- The wire bytes emitted by `finish()` (chunky.hpp:318-340): after the
request-body discard and streambuf put-back — which touch only the
request side — `finish` performs the terminal
`write_some(null_buffers())`, a zero-length body write. -/
def finishWire (r : Resp) (date : String) : String × Resp :=
  writeSomeWire r date ""

/-! ## Substring test (for wire-content statements) -/

/-- Is `p` a prefix of `l`? -/
def prefixB : List Char → List Char → Bool
  | [], _ => true
  | _ :: _, [] => false
  | a :: as, b :: bs => a = b && prefixB as bs

/-- Does `l` contain `p` as a contiguous substring? -/
def infixB (p l : List Char) : Bool :=
  match l with
  | [] => p.isEmpty
  | _ :: t => prefixB p l || infixB p t

/-- Does the string `s` contain `p` as a substring? -/
def containsStr (s p : String) : Bool := infixB p.data s.data

/-! ## WebSocket frame codec (`websocket.cpp`, second translation unit) -/

/-- The extended-length byte count chosen by `receive_frame` from the
7-bit length field (websocket.cpp:270-281): 2 bytes for the 126 marker
and — as written in the source — 4 bytes for the 127 marker (RFC 6455
specifies 8). -/
def payloadLenBytes (len7 : Nat) : Nat :=
  if len7 = 126 then 2 else if len7 = 127 then 4 else 0

/-- The big-endian accumulation loop `nPayloadBytes <<= 8;
nPayloadBytes |= byte` (websocket.cpp:297-300). -/
def beFold (init : Nat) (bs : List Nat) : Nat :=
  bs.foldl (fun acc b => acc * 256 + b) init

/-- The unmasking loop `c ^= mask[cindex++ & 0x3]`
(websocket.cpp:312-315). -/
def unmask (mask : List Nat) : Nat → List Nat → List Nat
  | _, [] => []
  | i, c :: cs => (c ^^^ mask.getD (i % 4) 0) :: unmask mask (i + 1) cs

/-- `WebSocket::receive_frame` (websocket.cpp:257-323) as a function of
the byte stream: read the two header bytes, determine the extended-length
and mask sizes, read them (the mask slots of the zero-value-initialized
header array stay 0 when the MASK bit is clear), accumulate the payload
length big-endian, read and unmask the payload.  Returns the delivered
`(opcode byte, payload)` and the unconsumed remainder of the stream;
`none` models the stream ending inside the frame. -/
def receiveFrame (input : List Nat) : Option (Nat × List Nat × List Nat) :=
  match input with
  | b0 :: b1 :: rest =>
    let len7 := b1 % 128
    let nLen := payloadLenBytes len7
    let nMask := if 128 ≤ b1 then 4 else 0
    if nLen + nMask ≤ rest.length then
      let lm := rest.take (nLen + nMask)
      let rest2 := rest.drop (nLen + nMask)
      let plen := beFold (if 126 ≤ len7 then 0 else len7) (lm.take nLen)
      let mask := if nMask = 4 then lm.drop nLen else [0, 0, 0, 0]
      if plen ≤ rest2.length then
        some (b0, unmask mask 0 (rest2.take plen), rest2.drop plen)
      else none
    else none
  | _ => none

/-- `WebSocket::build_header` (websocket.cpp:406-433): opcode/meta byte,
then the smallest of the three length encodings (1, 1+2 or 1+8 bytes,
big-endian). -/
def buildHeader (type : Nat) (len : Nat) : List Nat :=
  if len < 126 then [type, len]
  else if len < 65536 then [type, 126, len / 2 ^ 8 % 256, len % 256]
  else [type, 127,
        len / 2 ^ 56 % 256, len / 2 ^ 48 % 256, len / 2 ^ 40 % 256,
        len / 2 ^ 32 % 256, len / 2 ^ 24 % 256, len / 2 ^ 16 % 256,
        len / 2 ^ 8 % 256, len % 256]

/-- `WebSocket::send_frame` (websocket.cpp:326-371): the bytes written
for one frame — header then payload in one gathered write. -/
def sendFrameWire (type : Nat) (payload : List Nat) : List Nat :=
  buildHeader type payload.length ++ payload

/-- The chunked-framing condition exactly as the specification's claim
states it: the response carries a body, and either a Transfer-Encoding
other than `"identity"` is set or no Content-Length is set.  Stated from
the claim's words, to be compared with the source's `framing`. -/
def chunkedPerClaim (status : Nat) (method : String) (hs : Headers) : Bool :=
  bodyAllowedB status method &&
    ((match findH hs "transfer-encoding" with
      | some tv => decide (tv ≠ "identity")
      | none => false) ||
     (findH hs "content-length").isNone)

/-! ## Auxiliary notions for the header-block and trailer theorems -/

/-- Does the list contain the sequence CRLF? -/
def hasCRLF : List Char → Bool
  | '\r' :: '\n' :: _ => true
  | _ :: t => hasCRLF t
  | [] => false

/-- One CRLF-terminated wire line. -/
def encodeLine (l : String) : List Char := l.data ++ ['\r', '\n']

/-- A sequence of CRLF-terminated wire lines. -/
def encodeLines (ls : List String) : List Char := (ls.map encodeLine).flatten

/-- The header name of a parsable header line. -/
def lineKey (l : String) : String := ((parseHeaderLine l).getD ("", "")).1

/-- The (left-trimmed) header value of a parsable header line. -/
def lineVal (l : String) : String := ((parseHeaderLine l).getD ("", "")).2

/-- The step of `read_request_headers` as a fold over parsed
(name, value) pairs. -/
def coalesceStep (hs : Headers) (kv : String × String) : Headers :=
  coalesceH hs kv.1 kv.2

/-- The values carried by the lines whose name is caseless-equal to `n`,
in receipt order. -/
def headerValuesFor (lines : List String) (n : String) : List String :=
  lines.filterMap
    (fun l => if upKey (lineKey l) = upKey n then some (lineVal l) else none)

/-- The values among a (name, value) list whose name is caseless-equal
to `n`, in order. -/
def valuesForKV (kvs : List (String × String)) (n : String) : List String :=
  kvs.filterMap (fun kv => if upKey kv.1 = upKey n then some kv.2 else none)

/-- Join with `", "` — the claimed coalesced shape. -/
def joinComma : List String → String
  | [] => ""
  | [v] => v
  | v :: t => v ++ ", " ++ joinComma t

/-! # Theorems -/

/-! ## Caseless key equivalence -/

theorem ciEq_eq_decide (a b : String) :
    ciEq a b = decide (upKey a = upKey b) := by
  cases hd : decide (upKey a = upKey b)
  · simp at hd
    simp [ciEq, hd]
  · simp at hd
    simp [ciEq, hd]

/-! ## `findH` through the map operations -/

theorem findH_none_of_all (hs : Headers) (n : String)
    (h : ∀ x ∈ hs, upKey x.1 ≠ upKey n) : findH hs n = none := by
  induction hs with
  | nil => rfl
  | cons e t ih =>
    obtain ⟨k1, v1⟩ := e
    have hk : upKey k1 ≠ upKey n := h (k1, v1) (List.mem_cons_self _ _)
    simp [findH, ciEq_eq_decide, hk]
    exact ih fun x hx => h x (List.mem_cons_of_mem _ hx)

theorem findH_setH_eq (hs : Headers) (k v n : String)
    (h : upKey k = upKey n) :
    (findH hs k).isSome → findH (setH hs k v) n = some v := by
  induction hs with
  | nil => simp [findH]
  | cons e t ih =>
    obtain ⟨k1, v1⟩ := e
    intro hsome
    by_cases h1 : upKey k1 = upKey k
    · simp [setH, findH, ciEq_eq_decide, h1, h, h1.trans h]
    · have h1n : upKey k1 ≠ upKey n := fun hc => h1 (hc.trans h.symm)
      simp [setH, findH, ciEq_eq_decide, h1, h1n]
      simp [findH, ciEq_eq_decide, h1] at hsome
      exact ih hsome

theorem findH_setH_ne (hs : Headers) (k v n : String)
    (h : upKey k ≠ upKey n) :
    findH (setH hs k v) n = findH hs n := by
  induction hs with
  | nil => rfl
  | cons e t ih =>
    obtain ⟨k1, v1⟩ := e
    have hns : upKey n ≠ upKey k := fun hc => h hc.symm
    by_cases h1 : upKey k1 = upKey k
    · have h1n : upKey k1 ≠ upKey n := fun hc => h (h1.symm.trans hc)
      simp [setH, findH, ciEq_eq_decide, h1, h1n, h, hns]
    · by_cases h1n : upKey k1 = upKey n
      · simp [setH, findH, ciEq_eq_decide, h1, h1n, h, hns]
      · simp [setH, findH, ciEq_eq_decide, h1, h1n, h, hns, ih]

theorem findH_insH_eq (hs : Headers) (k v n : String)
    (hk : findH hs k = none) (h : upKey k = upKey n) :
    findH (insH hs k v) n = some v := by
  induction hs with
  | nil => simp [insH, findH, ciEq_eq_decide, h]
  | cons e t ih =>
    obtain ⟨k1, v1⟩ := e
    have h1 : upKey k1 ≠ upKey k := by
      intro hc
      simp [findH, ciEq_eq_decide, hc] at hk
    have hkt : findH t k = none := by
      simpa [findH, ciEq_eq_decide, h1] using hk
    have h1n : upKey k1 ≠ upKey n := fun hc => h1 (hc.trans h.symm)
    by_cases hlt : ciLt k k1 = true
    · simp [insH, hlt, findH, ciEq_eq_decide, h]
    · have hkk1 : upKey k ≠ upKey k1 := fun hc => h1 hc.symm
      simp [insH, hlt, findH, ciEq_eq_decide, hkk1, h1n]
      exact ih hkt

theorem findH_insH_ne (hs : Headers) (k v n : String)
    (h : upKey k ≠ upKey n) :
    findH (insH hs k v) n = findH hs n := by
  induction hs with
  | nil => simp [insH, findH, ciEq_eq_decide, h]
  | cons e t ih =>
    obtain ⟨k1, v1⟩ := e
    have hns : upKey n ≠ upKey k := fun hc => h hc.symm
    by_cases hlt : ciLt k k1 = true
    · simp [insH, hlt, findH, ciEq_eq_decide, h]
    · by_cases heq : upKey k = upKey k1
      · simp [insH, hlt, ciEq_eq_decide, heq, findH, h, hns]
      · by_cases h1n : upKey k1 = upKey n
        · simp [insH, hlt, ciEq_eq_decide, heq, findH, h1n, h, hns]
        · simp [insH, hlt, ciEq_eq_decide, heq, findH, h1n, h, hns, ih]

theorem findH_modH_eq (hs : Headers) (k v n w : String)
    (h : upKey k = upKey n) (hf : findH hs k = some w) :
    findH (modH hs k v) n = some (w ++ ", " ++ v) := by
  induction hs with
  | nil => simp [findH] at hf
  | cons e t ih =>
    obtain ⟨k1, v1⟩ := e
    by_cases h1 : upKey k1 = upKey k
    · simp [findH, ciEq_eq_decide, h1] at hf
      simp [modH, findH, ciEq_eq_decide, h1, h1.trans h, h, hf]
    · have h1n : upKey k1 ≠ upKey n := fun hc => h1 (hc.trans h.symm)
      simp [findH, ciEq_eq_decide, h1] at hf
      simp [modH, findH, ciEq_eq_decide, h1, h1n, ih hf]

theorem findH_modH_ne (hs : Headers) (k v n : String)
    (h : upKey k ≠ upKey n) :
    findH (modH hs k v) n = findH hs n := by
  induction hs with
  | nil => rfl
  | cons e t ih =>
    obtain ⟨k1, v1⟩ := e
    have hns : upKey n ≠ upKey k := fun hc => h hc.symm
    by_cases h1 : upKey k1 = upKey k
    · have h1n : upKey k1 ≠ upKey n := fun hc => h (h1.symm.trans hc)
      simp [modH, findH, ciEq_eq_decide, h1, h1n, h, hns]
    · by_cases h1n : upKey k1 = upKey n
      · simp [modH, findH, ciEq_eq_decide, h1, h1n, h, hns]
      · simp [modH, findH, ciEq_eq_decide, h1, h1n, h, hns, ih]

theorem findH_coalesceH (hs : Headers) (k v n : String) :
    findH (coalesceH hs k v) n =
      if upKey k = upKey n then
        some ((findH hs k).elim v (fun w => w ++ ", " ++ v))
      else findH hs n := by
  by_cases h : upKey k = upKey n
  · simp only [h, if_pos]
    unfold coalesceH
    cases hf : findH hs k with
    | none => exact findH_insH_eq hs k v n hf h
    | some w => exact findH_modH_eq hs k v n w h hf
  · simp only [h, if_neg, ite_false]
    unfold coalesceH
    cases hfk : findH hs k with
    | none => exact findH_insH_ne hs k v n h
    | some w => exact findH_modH_ne hs k v n h

theorem findH_assignH (hs : Headers) (k v n : String) :
    findH (assignH hs k v) n =
      if upKey k = upKey n then some v else findH hs n := by
  by_cases h : upKey k = upKey n
  · simp only [h, if_pos]
    unfold assignH
    cases hf : findH hs k with
    | none => exact findH_insH_eq hs k v n hf h
    | some w => exact findH_setH_eq hs k v n h (by simp [hf])
  · simp only [h, if_neg, ite_false]
    unfold assignH
    cases hfk : findH hs k with
    | none => exact findH_insH_ne hs k v n h
    | some w => exact findH_setH_ne hs k v n h

/-! ## `countH` through the map operations -/

theorem countH_eq_zero_iff (hs : Headers) (n : String) :
    countH hs n = 0 ↔ findH hs n = none := by
  induction hs with
  | nil => simp [countH, findH]
  | cons e t ih =>
    obtain ⟨k1, v1⟩ := e
    by_cases h1 : upKey k1 = upKey n
    · simp [countH, findH, ciEq_eq_decide, h1]
    · simp [countH, findH, ciEq_eq_decide, h1, ih]

theorem findH_none_congr (hs : Headers) (k n : String)
    (h : upKey k = upKey n) : findH hs k = none ↔ findH hs n = none := by
  induction hs with
  | nil => simp [findH]
  | cons e t ih =>
    obtain ⟨k1, v1⟩ := e
    by_cases h1 : upKey k1 = upKey k
    · simp [findH, ciEq_eq_decide, h1, h1.trans h, h]
    · have h1n : upKey k1 ≠ upKey n := fun hc => h1 (hc.trans h.symm)
      simp [findH, ciEq_eq_decide, h1, h1n, ih]

theorem countH_modH (hs : Headers) (k v n : String) :
    countH (modH hs k v) n = countH hs n := by
  induction hs with
  | nil => rfl
  | cons e t ih =>
    obtain ⟨k1, v1⟩ := e
    by_cases h1 : upKey k1 = upKey k
    · simp [modH, countH, ciEq_eq_decide, h1]
    · simp [modH, countH, ciEq_eq_decide, h1, ih]

theorem countH_setH (hs : Headers) (k v n : String) :
    countH (setH hs k v) n = countH hs n := by
  induction hs with
  | nil => rfl
  | cons e t ih =>
    obtain ⟨k1, v1⟩ := e
    by_cases h1 : upKey k1 = upKey k
    · simp [setH, countH, ciEq_eq_decide, h1]
    · simp [setH, countH, ciEq_eq_decide, h1, ih]

theorem countH_insH (hs : Headers) (k v n : String)
    (hk : findH hs k = none) :
    countH (insH hs k v) n =
      countH hs n + (if upKey k = upKey n then 1 else 0) := by
  induction hs with
  | nil =>
    by_cases h : upKey k = upKey n
    · simp [insH, countH, ciEq_eq_decide, h]
    · simp [insH, countH, ciEq_eq_decide, h]
  | cons e t ih =>
    obtain ⟨k1, v1⟩ := e
    have h1 : upKey k1 ≠ upKey k := by
      intro hc
      simp [findH, ciEq_eq_decide, hc] at hk
    have hkt : findH t k = none := by
      simpa [findH, ciEq_eq_decide, h1] using hk
    have hkk1 : upKey k ≠ upKey k1 := fun hc => h1 hc.symm
    by_cases hlt : ciLt k k1 = true
    · by_cases h : upKey k = upKey n
      · simp [insH, hlt, countH, ciEq_eq_decide, h]
        omega
      · simp [insH, hlt, countH, ciEq_eq_decide, h]
    · by_cases h : upKey k = upKey n
      · have hnk1 : upKey n ≠ upKey k1 := fun hc => hkk1 (h.trans hc)
        simp [insH, hlt, ciEq_eq_decide, hkk1, countH, ih hkt, h, hnk1]
        omega
      · simp [insH, hlt, ciEq_eq_decide, hkk1, countH, ih hkt, h]

theorem countH_coalesceH_le_one (hs : Headers) (k v n : String)
    (h : countH hs n ≤ 1) : countH (coalesceH hs k v) n ≤ 1 := by
  unfold coalesceH
  cases hf : findH hs k with
  | some w => simpa [countH_modH] using h
  | none =>
    rw [countH_insH hs k v n hf]
    by_cases hkn : upKey k = upKey n
    · have h0 : findH hs n = none := (findH_none_congr hs k n hkn).mp hf
      have : countH hs n = 0 := (countH_eq_zero_iff hs n).mpr h0
      simp [hkn, this]
    · simp [hkn]
      exact h

theorem countH_pos_of_findH_some (hs : Headers) (n w : String)
    (h : findH hs n = some w) : 1 ≤ countH hs n := by
  induction hs with
  | nil => simp [findH] at h
  | cons e t ih =>
    obtain ⟨k1, v1⟩ := e
    by_cases h1 : upKey k1 = upKey n
    · simp [countH, ciEq_eq_decide, h1]
    · simp [findH, ciEq_eq_decide, h1] at h
      have hle := ih h
      simp [countH, ciEq_eq_decide, h1]
      omega

/-! ## `eraseH` -/

theorem findH_eraseH_ne (hs : Headers) (k n : String)
    (h : upKey k ≠ upKey n) :
    findH (eraseH hs k) n = findH hs n := by
  induction hs with
  | nil => rfl
  | cons e t ih =>
    obtain ⟨k1, v1⟩ := e
    have hns : upKey n ≠ upKey k := fun hc => h hc.symm
    by_cases h1 : upKey k1 = upKey k
    · have h1n : upKey k1 ≠ upKey n := fun hc => h (h1.symm.trans hc)
      simp [eraseH, findH, ciEq_eq_decide, h1, h1n, h, hns]
    · by_cases h1n : upKey k1 = upKey n
      · simp [eraseH, findH, ciEq_eq_decide, h1, h1n, h, hns]
      · simp [eraseH, findH, ciEq_eq_decide, h1, h1n, h, hns, ih]

theorem findH_eraseH_eq (hs : Headers) (k n : String)
    (hu : countH hs n ≤ 1) (h : upKey k = upKey n) :
    findH (eraseH hs k) n = none := by
  induction hs with
  | nil => rfl
  | cons e t ih =>
    obtain ⟨k1, v1⟩ := e
    by_cases h1 : upKey k1 = upKey k
    · have h1n : upKey k1 = upKey n := h1.trans h
      simp [countH, ciEq_eq_decide, h1n] at hu
      simp [eraseH, ciEq_eq_decide, h1]
      exact (countH_eq_zero_iff t n).mp (by omega)
    · have h1n : upKey k1 ≠ upKey n := fun hc => h1 (hc.trans h.symm)
      simp [countH, ciEq_eq_decide, h1n] at hu
      simp [eraseH, findH, ciEq_eq_decide, h1, h1n]
      exact ih hu

/-! ## URI decoding lemmas -/

theorem allEscapesValid_cons (c : Char) (r : List Char) (hc : c ≠ '%') :
    allEscapesValid (c :: r) = allEscapesValid r := by
  rw [allEscapesValid.eq_def]
  split
  · simp_all
  · simp_all
  · simp_all
  · simp_all

theorem decode_agree (s : List Char) (h : allEscapesValid s = true) :
    decodeChars s = decodeSpecChars s := by
  induction s using decodeChars.induct with
  | case1 => rfl
  | case2 r ih =>
    simp only [allEscapesValid] at h
    simp [decodeChars, decodeSpecChars, ih h]
  | case3 c1 c2 r hx ih =>
    simp only [allEscapesValid, Bool.and_eq_true] at h
    simp [decodeChars, decodeSpecChars, hx, ih h.2]
  | case4 c1 c2 r hx =>
    simp only [allEscapesValid, Bool.and_eq_true] at h
    exact absurd (by simp [h.1.1, h.1.2]) hx
  | case5 r h2 =>
    rcases r with _ | ⟨x, _ | ⟨y, t⟩⟩
    · simp [allEscapesValid] at h
    · simp [allEscapesValid] at h
    · exact absurd rfl (fun hh => h2 x y t hh)
  | case6 c r h1 h2 h3 ih =>
    have hc1 : c ≠ '+' := fun hh => h1 hh
    have hc3 : c ≠ '%' := fun hh => h3 hh
    rw [allEscapesValid_cons c r hc3] at h
    simp [decodeChars, decodeSpecChars, hc1, hc3, ih h]

/-! ## Query parsing lemmas -/

theorem qFind_qAssign (q : Query) (k v : String) :
    qFind (qAssign q k v) k = some v := by
  induction q with
  | nil => simp [qAssign, qFind]
  | cons e t ih =>
    obtain ⟨k1, v1⟩ := e
    by_cases hk : k = k1
    · simp [qAssign, hk, qFind]
    · have hk1 : ¬(k1 = k) := fun hc => hk hc.symm
      by_cases hlt : lexLt k.data k1.data = true
      · simp [qAssign, hk, hlt, qFind]
      · simp [qAssign, hk, hlt, qFind, hk1, ih]

theorem takeWhile_append_all (p : Char → Bool) (k : List Char) (b : Char)
    (t : List Char) (hk : ∀ c ∈ k, p c = true) (hb : p b = false) :
    (k ++ b :: t).takeWhile p = k ∧ (k ++ b :: t).dropWhile p = b :: t := by
  induction k with
  | nil => simp [List.takeWhile_cons, List.dropWhile_cons, hb]
  | cons c k1 ih =>
    have hc : p c = true := hk c (List.mem_cons_self _ _)
    have hk1 : ∀ c ∈ k1, p c = true := fun x hx => hk x (List.mem_cons_of_mem _ hx)
    simp [List.takeWhile_cons, List.dropWhile_cons, hc, ih hk1]

theorem takeWhile_all (p : Char → Bool) (k : List Char)
    (hk : ∀ c ∈ k, p c = true) :
    k.takeWhile p = k ∧ k.dropWhile p = [] := by
  induction k with
  | nil => simp
  | cons c k1 ih =>
    have hc : p c = true := hk c (List.mem_cons_self _ _)
    have hk1 : ∀ c ∈ k1, p c = true := fun x hx => hk x (List.mem_cons_of_mem _ hx)
    simp [List.takeWhile_cons, List.dropWhile_cons, hc, ih hk1]

theorem parseQueryGo_nil (fuel : Nat) (q : Query) :
    parseQueryGo fuel [] q = q := by
  cases fuel <;> simp [parseQueryGo]

theorem parseQueryGo_skip (fuel : Nat) (k rest : List Char) (q : Query)
    (hne : k ≠ []) (hk : ∀ c ∈ k, notParamSpecial c = true) :
    parseQueryGo (fuel + 1) (k ++ '&' :: rest) q = parseQueryGo fuel rest q := by
  have hamp : notParamSpecial '&' = false := rfl
  obtain ⟨htw, hdw⟩ := takeWhile_append_all notParamSpecial k '&' rest hk hamp
  simp [parseQueryGo, htw, hdw, hne, dropAmp]

theorem parseQueryGo_noEq (fuel : Nat) (k : List Char) (q : Query)
    (hne : k ≠ []) (hk : ∀ c ∈ k, notParamSpecial c = true) :
    parseQueryGo (fuel + 1) k q = q := by
  obtain ⟨htw, hdw⟩ := takeWhile_all notParamSpecial k hk
  cases k with
  | nil => exact absurd rfl hne
  | cons c k1 =>
    simp [parseQueryGo, htw, hdw, dropAmp, parseQueryGo_nil]

/-! ## WebSocket lemmas -/

theorem unmask_zero (P : List Nat) (i : Nat) : unmask [0, 0, 0, 0] i P = P := by
  induction P generalizing i with
  | nil => rfl
  | cons c cs ih =>
    have hz : ([0, 0, 0, 0] : List Nat)[i % 4]?.getD 0 = 0 := by
      have h4 : i % 4 < 4 := Nat.mod_lt _ (by omega)
      interval_cases h : i % 4 <;> rfl
    simp [unmask, List.getD, hz, ih]

/-! ## Claim C2 (corrected) -/

/-- Claim C2, counterexample: with headers `Content-Length: xyz` and
`Transfer-Encoding: chunked`, the decoder does NOT proceed to chunked
body reading — `read_length` parses Content-Length first and fails with
`invalid_content_length`, contradicting the claim's "including when the
Content-Length value does not parse". -/
theorem claim_C2_counterexample :
    readLengthDecision
        [("Content-Length", "xyz"), ("Transfer-Encoding", "chunked")] =
      .error .invalidContentLength := by
  rfl

/-- Claim C2, amended: for every parsed request whose headers contain a
Transfer-Encoding entry with value not exactly `"identity"`, and whose
Content-Length — if present — parses successfully, `read_length` sets
`request_bytes_remaining` to 0 and `chunks_pending` to true and proceeds
to chunked body reading (`read_chunk_header`), regardless of the value a
parsable Content-Length carries; an unparsable Content-Length instead
fails with `invalid_content_length` even when Transfer-Encoding is
present. -/
theorem claim_C2 (st : Exch) (tv : String)
    (hte : findH st.requestHeaders "transfer-encoding" = some tv)
    (hid : tv ≠ "identity")
    (hcl : ∀ v, findH st.requestHeaders "content-length" = some v →
      (parseSizeT v.data).isSome = true) :
    readLengthDecision st.requestHeaders = .ok (0, true) ∧
    readLengthE st = readChunkHeaderE
      { st with requestBytes := 0, chunksPending := true } := by
  have hdec : readLengthDecision st.requestHeaders = .ok (0, true) := by
    unfold readLengthDecision
    cases hf : findH st.requestHeaders "content-length" with
    | none => rw [hte]; simp [hid]
    | some v =>
      have hp := hcl v hf
      cases hq : parseSizeT v.data with
      | none => rw [hq] at hp; simp at hp
      | some n => simp [hq, hte, hid]
  refine ⟨hdec, ?_⟩
  unfold readLengthE
  rw [hdec]

/-- Witness for C2 at a concrete exchange carrying
`Content-Length: 11` and `Transfer-Encoding: chunked`. -/
theorem claim_C2_witness :
    readLengthDecision
        [("Content-Length", "11"), ("Transfer-Encoding", "chunked")] =
      .ok (0, true) ∧
    readLengthE ⟨[], [], 0, false,
        [("Content-Length", "11"), ("Transfer-Encoding", "chunked")]⟩ =
      readChunkHeaderE ⟨[], [], 0, true,
        [("Content-Length", "11"), ("Transfer-Encoding", "chunked")]⟩ :=
  claim_C2 ⟨[], [], 0, false,
      [("Content-Length", "11"), ("Transfer-Encoding", "chunked")]⟩
    "chunked" rfl (by decide)
    (by
      intro v hv
      rw [show findH [("Content-Length", "11"), ("Transfer-Encoding", "chunked")]
            "content-length" = some "11" from rfl] at hv
      cases hv
      decide)

/-! ## Claim C6 (confirmed) -/

/-- Claim C6: for every exchange whose request body is exhausted
(`requestBytes_ = 0` and no chunks pending), a `read_some` or
`async_read_some` requesting at least one byte completes with the
end-of-stream error and zero bytes transferred, while a zero-length
(null-probe) read completes without error; the state is unchanged. -/
theorem claim_C6 (st : Exch) (h1 : st.requestBytes = 0)
    (h2 : st.chunksPending = false) :
    (∀ b, 1 ≤ b → readSomeE st b = ⟨some .eofErr, 0, st⟩) ∧
    readSomeE st 0 = ⟨none, 0, st⟩ := by
  obtain ⟨sb, wire, rb, cp, rh⟩ := st
  simp only [] at h1 h2
  subst h1 h2
  constructor
  · intro b hb
    simp [readSomeE, show ¬(b = 0) by omega, show 0 < b by omega]
  · simp [readSomeE]

/-- Witness for C6 on a fresh exhausted exchange, probing 5 bytes and 0
bytes. -/
theorem claim_C6_witness :
    readSomeE ⟨[], [], 0, false, []⟩ 5 =
      ⟨some .eofErr, 0, ⟨[], [], 0, false, []⟩⟩ ∧
    readSomeE ⟨[], [], 0, false, []⟩ 0 =
      ⟨none, 0, ⟨[], [], 0, false, []⟩⟩ :=
  ⟨(claim_C6 ⟨[], [], 0, false, []⟩ rfl rfl).1 5 (by omega),
   (claim_C6 ⟨[], [], 0, false, []⟩ rfl rfl).2⟩

/-! ## Claim C7 (code bug) -/

/-- Claim C7: the receive path is claimed (matching RFC 6455 and spec
§4.F) to read 8 big-endian length bytes when LEN7 = 127; the source's
`receive_frame` sets `nLengthBytes = 4` for the 127 marker, so only four
bytes are consumed as length — demonstrated on a concrete frame whose
four length bytes encode 3 and whose two trailing bytes remain
unconsumed.  (LEN7 = 126 correctly reads 2 bytes.)  Spec §9 itself flags
`nLengthBytes = 4` as a presumed bug of the source. -/
theorem claim_C7 :
    payloadLenBytes 127 = 4 ∧ payloadLenBytes 126 = 2 ∧
    receiveFrame ([129, 127] ++ [0, 0, 0, 3] ++ [97, 98, 99] ++ [7, 7]) =
      some (129, [97, 98, 99], [7, 7]) := by
  refine ⟨rfl, rfl, ?_⟩
  decide

/-! ## Claim C8 (confirmed) -/

/-- Claim C8: `parse_query` maps a query string to a mapping in which
later duplicate keys overwrite earlier ones (the `qAssign` conjunct and
the `x=1&x=2` instance) and a parameter without `=` is ignored (the two
`parseQueryGo` conjuncts); and the five specified evaluations hold. -/
theorem claim_C8 :
    parseQuery "foo+bar%3f=a%20%3D%26" = [("foo bar?", "a =&")] ∧
    parseQuery "a=b&c=d&foo=bar" = [("a", "b"), ("c", "d"), ("foo", "bar")] ∧
    parseQuery "" = [] ∧
    parseQuery "foo" = [] ∧
    parseQuery "foo=" = [("foo", "")] ∧
    parseQuery "x=1&x=2" = [("x", "2")] ∧
    (∀ q k v, qFind (qAssign q k v) k = some v) ∧
    (∀ fuel k rest q, k ≠ [] → (∀ c ∈ k, notParamSpecial c = true) →
      parseQueryGo (fuel + 1) (k ++ '&' :: rest) q = parseQueryGo fuel rest q) ∧
    (∀ fuel k q, k ≠ [] → (∀ c ∈ k, notParamSpecial c = true) →
      parseQueryGo (fuel + 1) k q = q) := by
  refine ⟨by decide, by decide, by decide, by decide, by decide, by decide,
    qFind_qAssign, parseQueryGo_skip, parseQueryGo_noEq⟩

/-- Witness for C8's quantified conjuncts at concrete inputs. -/
theorem claim_C8_witness :
    qFind (qAssign [("x", "1")] "x" "2") "x" = some "2" ∧
    parseQueryGo 4 ('a' :: '&' :: 'b' :: '=' :: '2' :: []) [] =
      parseQueryGo 3 ('b' :: '=' :: '2' :: []) [] ∧
    parseQueryGo 2 ('f' :: 'o' :: 'o' :: []) [] = [] :=
  ⟨claim_C8.2.2.2.2.2.2.1 [("x", "1")] "x" "2",
   claim_C8.2.2.2.2.2.2.2.1 3 ['a'] ('b' :: '=' :: '2' :: []) []
     (by decide) (by decide),
   claim_C8.2.2.2.2.2.2.2.2 1 ('f' :: 'o' :: 'o' :: []) []
     (by decide) (by decide)⟩

/-! ## Claim C9 (corrected) -/

/-- Claim C9, counterexample: the claim says every `+` becomes a space
and the invalid escape `%zz` stays verbatim, so `"%zz+"` would decode to
`"%zz "`; the source's `decode` instead stops all decoding at the first
invalid escape and returns `"%zz+"` — the `+` survives. -/
theorem claim_C9_counterexample :
    decode "%zz+" = "%zz+" ∧ decodeSpec "%zz+" = "%zz " ∧
    decode "%zz+" ≠ decodeSpec "%zz+" := by
  refine ⟨by decide, by decide, by decide⟩

/-- Claim C9, amended: `decode` replaces each `+` with a space and each
valid `%HH` escape with the byte `HH` as long as no invalid escape has
been encountered (on inputs whose escapes are all valid it agrees with
the claimed character-wise behaviour, `decodeSpec`), but upon the first
invalid `%` escape the entire remainder — later `+` and escapes
included — is copied verbatim; no error is raised. -/
theorem claim_C9 :
    (∀ s : String, allEscapesValid s.data = true → decode s = decodeSpec s) ∧
    (∀ t : List Char,
      decodeChars ('%' :: 'z' :: 'z' :: t) = '%' :: 'z' :: 'z' :: t) := by
  constructor
  · intro s hs
    unfold decode decodeSpec
    rw [decode_agree s.data hs]
  · intro t
    simp [decodeChars, show isHexDigitC 'z' = false from rfl]

/-- Witness for C9 at the all-valid input `"a+%41"` and the verbatim
tail `"x"`. -/
theorem claim_C9_witness :
    decode "a+%41" = decodeSpec "a+%41" ∧
    decodeChars ('%' :: 'z' :: 'z' :: ['x']) = '%' :: 'z' :: 'z' :: ['x'] :=
  ⟨claim_C9.1 "a+%41" (by decide), claim_C9.2 ['x']⟩

/-! ## Claim C10 (confirmed) -/

/-- Claim C10: for every opcode/meta byte and every payload shorter than
65536 bytes, decoding (per `receive_frame`'s header interpretation) the
bytes produced by `send_frame` yields exactly the sent pair: the length
encoding of `build_header` round-trips, the MASK bit is 0 on server-sent
frames (both length markers used here are < 128), and unmasking with the
absent — zero-filled — mask is the identity.  Any bytes following the
frame are left for the next receive. -/
theorem claim_C10 (m : Nat) (P rest : List Nat) (hP : P.length < 65536) :
    receiveFrame (sendFrameWire m P ++ rest) = some (m, P, rest) := by
  unfold sendFrameWire buildHeader
  by_cases h1 : P.length < 126
  · simp only [h1, if_pos, List.cons_append, List.nil_append]
    have hmod : P.length % 128 = P.length := Nat.mod_eq_of_lt (by omega)
    simp [receiveFrame, payloadLenBytes, hmod,
      show ¬(128 ≤ P.length) by omega,
      show ¬(P.length = 126) by omega,
      show ¬(P.length = 127) by omega,
      show ¬(126 ≤ P.length) by omega,
      beFold, unmask_zero, List.take_left, List.drop_left]
  · simp only [h1, if_neg, ite_false, hP, if_pos, List.cons_append,
      List.nil_append]
    have h126 : (126 : Nat) % 128 = 126 := by norm_num
    simp [receiveFrame, payloadLenBytes, h126, beFold, unmask_zero]
    constructor
    · omega
    · have hb : P.length / 256 % 256 * 256 + P.length % 256 = P.length := by
        omega
      rw [hb]
      simp [List.take_left, List.drop_left]

/-- Witness for C10: a one-shot round trip of a 3-byte text frame
followed by a stray byte. -/
theorem claim_C10_witness :
    receiveFrame (sendFrameWire 129 [1, 2, 3] ++ [9]) =
      some (129, [1, 2, 3], [9]) :=
  claim_C10 129 [1, 2, 3] [9] (by decide)

/-! ## Response-encoder lemmas -/

theorem countH_insH_ne (hs : Headers) (k v n : String)
    (h : upKey k ≠ upKey n) :
    countH (insH hs k v) n = countH hs n := by
  induction hs with
  | nil => simp [insH, countH, ciEq_eq_decide, h]
  | cons e t ih =>
    obtain ⟨k1, v1⟩ := e
    have hns : upKey n ≠ upKey k := fun hc => h hc.symm
    by_cases hlt : ciLt k k1 = true
    · simp [insH, hlt, countH, ciEq_eq_decide, h]
    · by_cases heq : upKey k = upKey k1
      · simp [insH, hlt, ciEq_eq_decide, heq, countH, h, hns]
      · simp [insH, hlt, ciEq_eq_decide, heq, countH, h, hns, ih]

theorem countH_assignH_ne (hs : Headers) (k v n : String)
    (h : upKey k ≠ upKey n) :
    countH (assignH hs k v) n = countH hs n := by
  unfold assignH
  cases hf : findH hs k with
  | none => exact countH_insH_ne hs k v n h
  | some w => exact countH_setH hs k v n

theorem findH_setDate (hs : Headers) (date : String) (n : String)
    (h : upKey "Date" ≠ upKey n) :
    findH (setDate hs date) n = findH hs n := by
  unfold setDate
  by_cases hd : (findH hs "date").isSome
  · simp [hd]
  · simp [hd, findH_assignH, h]

theorem countH_setDate (hs : Headers) (date : String) (n : String)
    (h : upKey "Date" ≠ upKey n) :
    countH (setDate hs date) n = countH hs n := by
  unfold setDate
  by_cases hd : (findH hs "date").isSome
  · simp [hd]
  · simp [hd, countH_assignH_ne hs "Date" date n h]

theorem framing_status (r : Resp) : (framing r).status = r.status := by
  unfold framing
  split
  · split
    · split_ifs <;> rfl
    · split_ifs <;> rfl
  · rfl

theorem framing_trailers (r : Resp) : (framing r).trailers = r.trailers := by
  unfold framing
  split
  · split
    · split_ifs <;> rfl
    · split_ifs <;> rfl
  · rfl

theorem framing_responseBytes (r : Resp) :
    (framing r).responseBytes = r.responseBytes := by
  unfold framing
  split
  · split
    · split_ifs <;> rfl
    · split_ifs <;> rfl
  · rfl


theorem framing_spec (r : Resp) (hch : r.chunked = false)
    (hcnt : countH r.headers "content-length" ≤ 1) :
    ((framing r).chunked = chunkedPerClaim r.status r.method r.headers) ∧
    (∀ tv, findH r.headers "transfer-encoding" = some tv → tv ≠ "identity" →
      bodyAllowedB r.status r.method = true →
      findH (framing r).headers "content-length" = none) ∧
    ((findH r.headers "transfer-encoding" = none ∨
      findH r.headers "transfer-encoding" = some "identity") →
      findH r.headers "content-length" = none →
      bodyAllowedB r.status r.method = true →
      findH (framing r).headers "transfer-encoding" = some "chunked") ∧
    (bodyAllowedB r.status r.method = false → framing r = r) := by
  have hTEc : upKey "Transfer-Encoding" = upKey "transfer-encoding" := by decide
  by_cases hba : bodyAllowedB r.status r.method = true
  · cases hte : findH r.headers "transfer-encoding" with
    | some tv =>
      by_cases hid : tv = "identity"
      · subst hid
        by_cases hcl : findH r.headers "content-length" = none
        · have hc0 : countH r.headers "content-length" = 0 :=
            (countH_eq_zero_iff _ _).mpr hcl
          have hfr : framing r =
              { r with chunked := true,
                       headers := assignH r.headers "Transfer-Encoding" "chunked" } := by
            unfold framing
            simp [hba, hte, hc0]
          refine ⟨?_, ?_, ?_, ?_⟩
          · simp [hfr, chunkedPerClaim, hba, hte, hcl]
          · intro tv2 htv2 hne2 _
            cases htv2
            exact absurd rfl hne2
          · intro _ _ _
            rw [hfr]
            simp [findH_assignH, hTEc]
          · intro hba2
            rw [hba2] at hba
            simp at hba
        · have hc0 : ¬(countH r.headers "content-length" = 0) := by
            intro hc
            exact hcl ((countH_eq_zero_iff _ _).mp hc)
          have hfr : framing r = r := by
            unfold framing
            simp [hba, hte, hc0]
          refine ⟨?_, ?_, ?_, ?_⟩
          · simp [hfr, hch, chunkedPerClaim, hba, hte]
            cases hclv : findH r.headers "content-length" with
            | none => exact absurd hclv hcl
            | some w => simp
          · intro tv2 htv2 hne2 _
            cases htv2
            exact absurd rfl hne2
          · intro _ hcl2 _
            exact absurd hcl2 hcl
          · intro hba2
            rw [hba2] at hba
            simp at hba
      · have hfr : framing r =
            { r with chunked := true,
                     headers := eraseH r.headers "content-length" } := by
          unfold framing
          simp [hba, hte, hid]
        refine ⟨?_, ?_, ?_, ?_⟩
        · simp [hfr, chunkedPerClaim, hba, hte, hid]
        · intro tv2 htv2 hne2 _
          rw [hfr]
          exact findH_eraseH_eq r.headers "content-length" "content-length" hcnt rfl
        · intro hor _ _
          rcases hor with h1 | h1
          · exact Option.noConfusion h1
          · cases h1
            exact absurd rfl hid
        · intro hba2
          rw [hba2] at hba
          simp at hba
    | none =>
      by_cases hcl : findH r.headers "content-length" = none
      · have hc0 : countH r.headers "content-length" = 0 :=
          (countH_eq_zero_iff _ _).mpr hcl
        have hfr : framing r =
            { r with chunked := true,
                     headers := assignH r.headers "Transfer-Encoding" "chunked" } := by
          unfold framing
          simp [hba, hte, hc0]
        refine ⟨?_, ?_, ?_, ?_⟩
        · simp [hfr, chunkedPerClaim, hba, hte, hcl]
        · intro tv2 htv2 hne2 _
          exact Option.noConfusion htv2
        · intro _ _ _
          rw [hfr]
          simp [findH_assignH, hTEc]
        · intro hba2
          rw [hba2] at hba
          simp at hba
      · have hc0 : ¬(countH r.headers "content-length" = 0) := by
          intro hc
          exact hcl ((countH_eq_zero_iff _ _).mp hc)
        have hfr : framing r = r := by
          unfold framing
          simp [hba, hte, hc0]
        refine ⟨?_, ?_, ?_, ?_⟩
        · simp [hfr, hch, chunkedPerClaim, hba, hte]
          cases hclv : findH r.headers "content-length" with
          | none => exact absurd hclv hcl
          | some w => simp
        · intro tv2 htv2 hne2 _
          exact Option.noConfusion htv2
        · intro _ hcl2 _
          exact absurd hcl2 hcl
        · intro hba2
          rw [hba2] at hba
          simp at hba
  · have hbaf : bodyAllowedB r.status r.method = false := by
      cases hx : bodyAllowedB r.status r.method
      · rfl
      · exact absurd hx hba
    have hfr : framing r = r := by
      unfold framing
      simp [hbaf]
    refine ⟨?_, ?_, ?_, ?_⟩
    · simp [hfr, hch, chunkedPerClaim, hbaf]
    · intro tv2 htv2 hne2 hba2
      rw [hba2] at hbaf
      simp at hbaf
    · intro _ _ hba2
      rw [hba2] at hbaf
      simp at hbaf
    · intro _
      exact hfr


/-! ## Claim C3 (confirmed) -/

/-- Claim C3: at the first body write of every exchange
(`responseBytes_ = 0`, `responseChunked_` still false), the encoder
chooses chunked framing if and only if the response carries a body
(status ≥ 200, status ∉ {204, 304}, request method ≠ HEAD) and either a
Transfer-Encoding other than `"identity"` is set (in which case any
Content-Length is removed — second conjunct) or no Content-Length is set
(in which case `Transfer-Encoding: chunked` is present afterwards — third
conjunct, covering both an absent and an `identity` Transfer-Encoding);
when the handler has set Content-Length the message is not chunked (the
iff), and for 1xx/204/304/HEAD responses the headers gain only the Date
entry, no chunk framing is emitted in prefix or suffix and no
Transfer-Encoding is inserted (fourth conjunct). -/
theorem claim_C3 (r : Resp) (date : String) (nBytes : Nat)
    (hrb : r.responseBytes = 0) (hch : r.chunked = false)
    (hcnt : countH r.headers "content-length" ≤ 1) :
    ((prepareWritePrefix r date nBytes).2.chunked =
      chunkedPerClaim r.status r.method r.headers) ∧
    (∀ tv, findH r.headers "transfer-encoding" = some tv → tv ≠ "identity" →
      bodyAllowedB r.status r.method = true →
      findH (prepareWritePrefix r date nBytes).2.headers "content-length" = none) ∧
    ((findH r.headers "transfer-encoding" = none ∨
      findH r.headers "transfer-encoding" = some "identity") →
      findH r.headers "content-length" = none →
      bodyAllowedB r.status r.method = true →
      findH (prepareWritePrefix r date nBytes).2.headers "transfer-encoding" =
        some "chunked") ∧
    (bodyAllowedB r.status r.method = false →
      (prepareWritePrefix r date nBytes).2 =
        { r with headers := setDate r.headers date } ∧
      (prepareWritePrefix r date nBytes).1 =
        writeStatus r.status ++ renderHeaders (setDate r.headers date) ∧
      prepareWriteSuffix (prepareWritePrefix r date nBytes).2 nBytes = "") := by
  have hdTE : upKey "Date" ≠ upKey "transfer-encoding" := by decide
  have hdCL : upKey "Date" ≠ upKey "content-length" := by decide
  have hrd_te : findH (setDate r.headers date) "transfer-encoding" =
      findH r.headers "transfer-encoding" := findH_setDate _ _ _ hdTE
  have hrd_cl : findH (setDate r.headers date) "content-length" =
      findH r.headers "content-length" := findH_setDate _ _ _ hdCL
  have hrd_cnt : countH (setDate r.headers date) "content-length" =
      countH r.headers "content-length" := countH_setDate _ _ _ hdCL
  have hspec := framing_spec { r with headers := setDate r.headers date }
    hch (by rw [show ({ r with headers := setDate r.headers date } : Resp).headers =
          setDate r.headers date from rfl, hrd_cnt]; exact hcnt)
  have hpp2 : (prepareWritePrefix r date nBytes).2 =
      framing { r with headers := setDate r.headers date } := by
    simp [prepareWritePrefix, hrb]
  have hpp1 : (prepareWritePrefix r date nBytes).1 =
      writeStatus (framing { r with headers := setDate r.headers date }).status ++
      renderHeaders (framing { r with headers := setDate r.headers date }).headers ++
      (if (framing { r with headers := setDate r.headers date }).chunked then
        toHex nBytes ++ "\r\n" else "") := by
    simp [prepareWritePrefix, hrb]
  have hclaim_eq : chunkedPerClaim r.status r.method (setDate r.headers date) =
      chunkedPerClaim r.status r.method r.headers := by
    unfold chunkedPerClaim
    rw [hrd_te, hrd_cl]
  refine ⟨?_, ?_, ?_, ?_⟩
  · rw [hpp2, hspec.1]
    exact hclaim_eq
  · intro tv htv hne hba
    rw [hpp2]
    exact hspec.2.1 tv (by rw [show ({ r with headers := setDate r.headers date } : Resp).headers = setDate r.headers date from rfl, hrd_te]; exact htv) hne hba
  · intro hor hcl hba
    rw [hpp2]
    refine hspec.2.2.1 ?_ (by rw [show ({ r with headers := setDate r.headers date } : Resp).headers = setDate r.headers date from rfl, hrd_cl]; exact hcl) hba
    rcases hor with h1 | h1
    · exact Or.inl (by rw [show ({ r with headers := setDate r.headers date } : Resp).headers = setDate r.headers date from rfl, hrd_te]; exact h1)
    · exact Or.inr (by rw [show ({ r with headers := setDate r.headers date } : Resp).headers = setDate r.headers date from rfl, hrd_te]; exact h1)
  · intro hba
    have hfr := hspec.2.2.2 hba
    refine ⟨by rw [hpp2, hfr], ?_, ?_⟩
    · rw [hpp1, hfr]
      have : ({ r with headers := setDate r.headers date } : Resp).chunked = false := hch
      rw [this]
      simp
    · rw [hpp2, hfr]
      unfold prepareWriteSuffix
      have : ({ r with headers := setDate r.headers date } : Resp).chunked = false := hch
      rw [this]
      simp

/-- Witness for C3 at a 200 GET with only a Content-Type header. -/
theorem claim_C3_witness :
    (prepareWritePrefix ⟨200, "GET", [("Content-Type", "text/plain")], [],
        0, false⟩ "D" 17).2.chunked =
      chunkedPerClaim 200 "GET" [("Content-Type", "text/plain")] ∧
    findH (prepareWritePrefix ⟨200, "GET", [("Content-Type", "text/plain")],
        [], 0, false⟩ "D" 17).2.headers "transfer-encoding" =
      some "chunked" :=
  ⟨(claim_C3 ⟨200, "GET", [("Content-Type", "text/plain")], [], 0, false⟩
      "D" 17 rfl rfl (by decide)).1,
   (claim_C3 ⟨200, "GET", [("Content-Type", "text/plain")], [], 0, false⟩
      "D" 17 rfl rfl (by decide)).2.2.1 (Or.inl rfl) rfl (by decide)⟩

/-! ## Claim C1 (corrected) -/

/-- Claim C1, counterexample: scenario S1 — a 200 response to a GET whose
handler wrote no body and set no Content-Length — does NOT put
`Content-Length: 0` on the wire: `finish()` merely performs the terminal
zero-length write, whose first-write prologue chooses chunked framing and
inserts `Transfer-Encoding: chunked` instead. -/
theorem claim_C1_counterexample :
    containsStr (finishWire ⟨200, "GET", [("Content-Type", "text/plain")], [],
        0, false⟩ "Thu, 01 Jan 1970 00:00:00 GMT").1 "Content-Length: 0" =
      false ∧
    containsStr (finishWire ⟨200, "GET", [("Content-Type", "text/plain")], [],
        0, false⟩ "Thu, 01 Jan 1970 00:00:00 GMT").1
      "Transfer-Encoding: chunked" = true ∧
    containsStr (finishWire ⟨200, "GET", [("Content-Type", "text/plain")], [],
        0, false⟩ "Thu, 01 Jan 1970 00:00:00 GMT").1 "HTTP/1.1 200 OK\r\n" =
      true := by
  refine ⟨by decide, by decide, by decide⟩

/-- Claim C1, amended: for every exchange with response status giving a
body (≥ 200, ∉ {204, 304}, method ≠ HEAD) on which the handler issued no
body write and set neither Content-Length nor Transfer-Encoding,
`finish()` does not force `Content-Length: 0`; its terminal zero-length
write emits the prologue with `Transfer-Encoding: chunked` inserted
(and still no Content-Length), followed by the terminal empty chunk, so
the wire response is the status line, the headers and `0\r\n\r\n`. -/
theorem claim_C1 (r : Resp) (date : String)
    (hrb : r.responseBytes = 0) (hch : r.chunked = false)
    (hba : bodyAllowedB r.status r.method = true)
    (hte : findH r.headers "transfer-encoding" = none)
    (hcl : findH r.headers "content-length" = none)
    (htr : r.trailers = []) :
    (finishWire r date).2.chunked = true ∧
    findH (finishWire r date).2.headers "transfer-encoding" = some "chunked" ∧
    findH (finishWire r date).2.headers "content-length" = none ∧
    (finishWire r date).1 =
      writeStatus r.status ++ renderHeaders (finishWire r date).2.headers ++
        "0\r\n\r\n" := by
  obtain ⟨st, me, hs, tr, rb, ch⟩ := r
  simp only [] at hrb hch hba hte hcl htr
  subst hrb hch htr
  have hdTE : upKey "Date" ≠ upKey "transfer-encoding" := by decide
  have hdCL : upKey "Date" ≠ upKey "content-length" := by decide
  have hTEc : upKey "Transfer-Encoding" = upKey "transfer-encoding" := by decide
  have hTECL : upKey "Transfer-Encoding" ≠ upKey "content-length" := by decide
  have hrd_te : findH (setDate hs date) "transfer-encoding" =
      findH hs "transfer-encoding" := findH_setDate _ _ _ hdTE
  have hrd_cl : findH (setDate hs date) "content-length" =
      findH hs "content-length" := findH_setDate _ _ _ hdCL
  have hc0 : countH (setDate hs date) "content-length" = 0 :=
    (countH_eq_zero_iff _ _).mpr (by rw [hrd_cl]; exact hcl)
  have hfr : framing ⟨st, me, setDate hs date, [], 0, false⟩ =
      ⟨st, me, assignH (setDate hs date) "Transfer-Encoding" "chunked",
        [], 0, true⟩ := by
    unfold framing
    simp [hba, hrd_te.trans hte, hc0]
  have hw : finishWire ⟨st, me, hs, [], 0, false⟩ date =
      (writeStatus st ++
        renderHeaders (assignH (setDate hs date) "Transfer-Encoding" "chunked")
        ++ "0\r\n" ++ "\r\n",
       ⟨st, me, assignH (setDate hs date) "Transfer-Encoding" "chunked",
        [], 0, true⟩) := by
    unfold finishWire writeSomeWire
    simp [prepareWritePrefix, hfr, prepareWriteSuffix, toHex, renderHeaders]
  rw [hw]
  refine ⟨rfl, ?_, ?_, ?_⟩
  · simp only []
    rw [findH_assignH]
    simp [hTEc]
  · simp only []
    rw [findH_assignH]
    simp [hTECL, hrd_cl, hcl]
  · simp only []
    rw [String.append_assoc (writeStatus st ++
        renderHeaders (assignH (setDate hs date) "Transfer-Encoding" "chunked"))
      "0\r\n" "\r\n"]
    rw [show ("0\r\n" ++ "\r\n" : String) = "0\r\n\r\n" by rfl]

/-- Witness for C1 at the S1 exchange. -/
theorem claim_C1_witness :
    (finishWire ⟨200, "GET", [("Content-Type", "text/plain")], [], 0, false⟩
        "Thu, 01 Jan 1970 00:00:00 GMT").2.chunked = true ∧
    findH (finishWire ⟨200, "GET", [("Content-Type", "text/plain")], [], 0,
        false⟩ "Thu, 01 Jan 1970 00:00:00 GMT").2.headers "transfer-encoding" =
      some "chunked" ∧
    findH (finishWire ⟨200, "GET", [("Content-Type", "text/plain")], [], 0,
        false⟩ "Thu, 01 Jan 1970 00:00:00 GMT").2.headers "content-length" =
      none ∧
    (finishWire ⟨200, "GET", [("Content-Type", "text/plain")], [], 0, false⟩
        "Thu, 01 Jan 1970 00:00:00 GMT").1 =
      writeStatus 200 ++
        renderHeaders (finishWire ⟨200, "GET",
          [("Content-Type", "text/plain")], [], 0, false⟩
          "Thu, 01 Jan 1970 00:00:00 GMT").2.headers ++ "0\r\n\r\n" :=
  claim_C1 ⟨200, "GET", [("Content-Type", "text/plain")], [], 0, false⟩
    "Thu, 01 Jan 1970 00:00:00 GMT" rfl rfl (by decide) rfl rfl rfl

/-! ## Byte-stream line lemmas -/

theorem splitCRLF_cons_other (c : Char) (t : List Char)
    (h : ¬(c = '\r' ∧ t.head? = some '\n')) :
    splitCRLF (c :: t) =
      (splitCRLF t).map (fun p => (c :: p.1, p.2)) := by
  cases t with
  | nil =>
    by_cases hc : c = '\r'
    · subst hc
      simp [splitCRLF]
    · simp [splitCRLF, hc]
  | cons c2 t2 =>
    by_cases hc : c = '\r'
    · subst hc
      by_cases hc2 : c2 = '\n'
      · exact absurd ⟨rfl, by simp [hc2]⟩ h
      · cases hs : splitCRLF (c2 :: t2) with
        | none => simp [splitCRLF, hc2, hs]
        | some p => simp [splitCRLF, hc2, hs]
    · cases hs : splitCRLF (c2 :: t2) with
      | none => simp [splitCRLF, hc, hs]
      | some p => simp [splitCRLF, hc, hs]

theorem hasCRLF_cons (c : Char) (t : List Char) (h : hasCRLF (c :: t) = false) :
    hasCRLF t = false := by
  cases t with
  | nil => rfl
  | cons c2 t2 =>
    by_cases hc : c = '\r'
    · subst hc
      by_cases hc2 : c2 = '\n'
      · subst hc2
        simp [hasCRLF] at h
      · simpa [hasCRLF, hc2] using h
    · simpa [hasCRLF, hc] using h

theorem splitCRLF_append (l rest : List Char) (h : hasCRLF l = false) :
    splitCRLF (l ++ '\r' :: '\n' :: rest) = some (l, rest) := by
  induction l with
  | nil => rfl
  | cons c t ih =>
    have ht : hasCRLF t = false := hasCRLF_cons c t h
    have hnc : ¬(c = '\r' ∧ (t ++ '\r' :: '\n' :: rest).head? = some '\n') := by
      rintro ⟨hc, hh⟩
      subst hc
      cases t with
      | nil => simp at hh
      | cons c2 t2 =>
        simp at hh
        subst hh
        simp [hasCRLF] at h
    rw [List.cons_append, splitCRLF_cons_other c _ hnc, ih ht]
    rfl

theorem consumeE_combined (st : Exch) (n : Nat) :
    (consumeE st n).sb ++ (consumeE st n).wire = (st.sb ++ st.wire).drop n := by
  unfold consumeE
  by_cases h : n ≤ st.sb.length
  · simp [h, List.drop_append_of_le_length h]
  · have hle : st.sb.length ≤ n := by omega
    simp only [h, if_neg, ite_false]
    rw [List.drop_append_eq_append_drop, List.drop_eq_nil_of_le hle]

theorem consumeE_fields (st : Exch) (n : Nat) :
    (consumeE st n).requestBytes = st.requestBytes ∧
    (consumeE st n).chunksPending = st.chunksPending ∧
    (consumeE st n).requestHeaders = st.requestHeaders := by
  unfold consumeE
  split <;> exact ⟨rfl, rfl, rfl⟩

theorem getLineE_append (st : Exch) (l rest : List Char)
    (hin : st.sb ++ st.wire = l ++ '\r' :: '\n' :: rest)
    (hno : hasCRLF l = false) :
    getLineE st = some (⟨l⟩, consumeE st (l.length + 2)) ∧
    (consumeE st (l.length + 2)).sb ++ (consumeE st (l.length + 2)).wire =
      rest := by
  constructor
  · unfold getLineE
    rw [hin, splitCRLF_append l rest hno]
  · rw [consumeE_combined, hin, List.drop_append_eq_append_drop,
      List.drop_eq_nil_of_le (by omega : l.length ≤ l.length + 2),
      show l.length + 2 - l.length = 2 by omega]
    simp

theorem totalLen_eq (st : Exch) : totalLen st = (st.sb ++ st.wire).length := by
  simp [totalLen]

theorem readHeadersGo_spec (lines : List String) :
    ∀ (fuel : Nat) (st : Exch) (rest : List Char),
    (∀ l ∈ lines, hasCRLF l.data = false ∧ l ≠ "" ∧
      (parseHeaderLine l).isSome = true) →
    st.sb ++ st.wire = encodeLines lines ++ '\r' :: '\n' :: rest →
    totalLen st < fuel →
    ∃ st2, readHeadersGo fuel st = .ok st2 ∧
      st2.requestHeaders =
        (lines.map (fun l => (lineKey l, lineVal l))).foldl coalesceStep
          st.requestHeaders ∧
      st2.sb ++ st2.wire = rest ∧
      st2.requestBytes = st.requestBytes ∧
      st2.chunksPending = st.chunksPending := by
  induction lines with
  | nil =>
    intro fuel st rest hw hin hfuel
    cases fuel with
    | zero => omega
    | succ f =>
      have hin0 : st.sb ++ st.wire = [] ++ '\r' :: '\n' :: rest := by
        simpa [encodeLines] using hin
      obtain ⟨hg, hc⟩ := getLineE_append st [] rest hin0 rfl
      obtain ⟨hf1, hf2, hf3⟩ := consumeE_fields st (List.length [] + 2)
      refine ⟨consumeE st (List.length [] + 2), ?_, ?_, hc, hf1, hf2⟩
      · unfold readHeadersGo
        rw [hg]
        rfl
      · simpa using hf3
  | cons l ls ih =>
    intro fuel st rest hw hin hfuel
    have hwl := hw l (List.mem_cons_self _ _)
    have hwls : ∀ x ∈ ls, hasCRLF x.data = false ∧ x ≠ "" ∧
        (parseHeaderLine x).isSome = true :=
      fun x hx => hw x (List.mem_cons_of_mem _ hx)
    cases fuel with
    | zero => omega
    | succ f =>
      have hin1 : st.sb ++ st.wire =
          l.data ++ '\r' :: '\n' :: (encodeLines ls ++ '\r' :: '\n' :: rest) := by
        rw [hin]
        simp [encodeLines, encodeLine, List.append_assoc]
      obtain ⟨hg, hc⟩ := getLineE_append st l.data
        (encodeLines ls ++ '\r' :: '\n' :: rest) hin1 hwl.1
      obtain ⟨hf1, hf2, hf3⟩ := consumeE_fields st (l.data.length + 2)
      obtain ⟨kv, hkv⟩ := Option.isSome_iff_exists.mp hwl.2.2
      have hlen : totalLen st =
          l.data.length + 2 +
            (encodeLines ls ++ '\r' :: '\n' :: rest).length := by
        rw [totalLen_eq, hin1]
        simp
        omega
      have hlen1 : totalLen (consumeE st (l.data.length + 2)) =
          (encodeLines ls ++ '\r' :: '\n' :: rest).length := by
        rw [totalLen_eq, hc]
      set st1 := consumeE st (l.data.length + 2) with hst1
      set st1h : Exch :=
        { st1 with requestHeaders := coalesceH st1.requestHeaders kv.1 kv.2 }
        with hst1h
      have hih := ih f st1h rest hwls
        (by
          rw [show st1h.sb = st1.sb from rfl, show st1h.wire = st1.wire from rfl]
          exact hc)
        (by
          have : totalLen st1h = totalLen st1 := by
            simp [totalLen]
          omega)
      obtain ⟨st2, h1, h2, h3, h4, h5⟩ := hih
      refine ⟨st2, ?_, ?_, h3, ?_, ?_⟩
      · unfold readHeadersGo
        rw [hg]
        have hmk : (⟨l.data⟩ : String) = l := rfl
        rw [hmk]
        have hne : ¬(l = "") := hwl.2.1
        simp only [hne, if_neg, ite_false, hkv]
        exact h1
      · rw [h2]
        simp [lineKey, lineVal, hkv, coalesceStep, hst1h, hf3]
      · rw [h4]
        exact hf1
      · rw [h5]
        exact hf2

/-! ## Header-coalescing fold lemmas -/

theorem findH_congr (hs : Headers) (k n : String) (h : upKey k = upKey n) :
    findH hs k = findH hs n := by
  induction hs with
  | nil => rfl
  | cons e t ih =>
    obtain ⟨k1, v1⟩ := e
    by_cases h1 : upKey k1 = upKey k
    · simp [findH, ciEq_eq_decide, h1, h1.trans h, h]
    · have h1n : upKey k1 ≠ upKey n := fun hc => h1 (hc.trans h.symm)
      simp [findH, ciEq_eq_decide, h1, h1n, ih]

theorem joinComma_cons (a b : String) (vs : List String) :
    joinComma ((a ++ ", " ++ b) :: vs) = joinComma (a :: b :: vs) := by
  cases vs with
  | nil => rfl
  | cons c t =>
    show (a ++ ", " ++ b) ++ ", " ++ joinComma (c :: t) =
      a ++ ", " ++ (b ++ ", " ++ joinComma (c :: t))
    simp [String.append_assoc]

theorem findH_fold (kvs : List (String × String)) :
    ∀ (hs : Headers) (n : String),
    findH (kvs.foldl coalesceStep hs) n =
      match findH hs n, valuesForKV kvs n with
      | none, [] => none
      | none, vs => some (joinComma vs)
      | some w, vs => some (joinComma (w :: vs)) := by
  induction kvs with
  | nil =>
    intro hs n
    cases hf : findH hs n <;> simp [valuesForKV, joinComma, hf]
  | cons kv t ih =>
    intro hs n
    obtain ⟨k, v⟩ := kv
    by_cases hk : upKey k = upKey n
    · have hfc : findH (coalesceH hs k v) n =
          some ((findH hs k).elim v (fun w => w ++ ", " ++ v)) := by
        rw [findH_coalesceH]
        simp [hk]
      have hkn : findH hs k = findH hs n := findH_congr hs k n hk
      have hv : valuesForKV ((k, v) :: t) n = v :: valuesForKV t n := by
        simp [valuesForKV, hk]
      rw [List.foldl_cons, show coalesceStep hs (k, v) = coalesceH hs k v from
        rfl, ih (coalesceH hs k v) n, hfc, hv]
      cases hf : findH hs n with
      | none =>
        rw [hkn, hf]
        simp
      | some w =>
        rw [hkn, hf]
        simp [joinComma_cons]
    · have hfc : findH (coalesceH hs k v) n = findH hs n := by
        rw [findH_coalesceH]
        simp [hk]
      have hv : valuesForKV ((k, v) :: t) n = valuesForKV t n := by
        simp [valuesForKV, hk]
      rw [List.foldl_cons, show coalesceStep hs (k, v) = coalesceH hs k v from
        rfl, ih (coalesceH hs k v) n, hfc, hv]

theorem countH_fold_le_one (kvs : List (String × String)) :
    ∀ (hs : Headers) (n : String), countH hs n ≤ 1 →
    countH (kvs.foldl coalesceStep hs) n ≤ 1 := by
  induction kvs with
  | nil => intro hs n h; exact h
  | cons kv t ih =>
    intro hs n h
    obtain ⟨k, v⟩ := kv
    rw [List.foldl_cons]
    exact ih (coalesceH hs k v) n (countH_coalesceH_le_one hs k v n h)


/-! ## Claim C5 (confirmed) -/

/-- Claim C5: for every input request header block given as wellformed
CRLF-terminated lines (no embedded CRLF, non-empty, containing a colon)
followed by the blank line, and for every name `n` carried by at least
one line, the parsed request header map contains exactly one entry for
that name (`countH … = 1`), whose value equals the received values of
all lines with that case-insensitive name joined by `", "` in receipt
order; the bytes after the blank line are untouched. -/
theorem claim_C5 (lines : List String) (rest : List Char) (st : Exch)
    (n : String)
    (hw : ∀ l ∈ lines, hasCRLF l.data = false ∧ l ≠ "" ∧
      (parseHeaderLine l).isSome = true)
    (hin : st.sb ++ st.wire = encodeLines lines ++ '\r' :: '\n' :: rest)
    (hh : st.requestHeaders = [])
    (hN : headerValuesFor lines n ≠ []) :
    ∃ st2, readRequestHeadersE st = .ok st2 ∧
      findH st2.requestHeaders n =
        some (joinComma (headerValuesFor lines n)) ∧
      countH st2.requestHeaders n = 1 ∧
      st2.sb ++ st2.wire = rest := by
  obtain ⟨st2, h1, h2, h3, _, _⟩ :=
    readHeadersGo_spec lines (totalLen st + 1) st rest hw hin (by omega)
  have hvv : valuesForKV (lines.map (fun l => (lineKey l, lineVal l))) n =
      headerValuesFor lines n := by
    unfold valuesForKV headerValuesFor
    rw [List.filterMap_map]
    rfl
  have hfind : findH st2.requestHeaders n =
      some (joinComma (headerValuesFor lines n)) := by
    rw [h2, hh, findH_fold, hvv]
    rw [show findH [] n = none from rfl]
    cases hvt : headerValuesFor lines n with
    | nil => exact absurd hvt hN
    | cons c t => simp
  refine ⟨st2, h1, hfind, ?_, h3⟩
  have hle : countH st2.requestHeaders n ≤ 1 := by
    rw [h2, hh]
    exact countH_fold_le_one _ [] n (by simp [countH])
  have hge : 1 ≤ countH st2.requestHeaders n :=
    countH_pos_of_findH_some st2.requestHeaders n _ hfind
  omega

/-- Witness for C5: three lines, two of which carry the name `X-A` in
different cases. -/
theorem claim_C5_witness :
    ∃ st2, readRequestHeadersE
        ⟨[], encodeLines ["Host: x", "X-A: 1", "x-a: 2"] ++
          '\r' :: '\n' :: ['Q'], 0, false, []⟩ = .ok st2 ∧
      findH st2.requestHeaders "X-A" =
        some (joinComma (headerValuesFor ["Host: x", "X-A: 1", "x-a: 2"] "X-A")) ∧
      countH st2.requestHeaders "X-A" = 1 ∧
      st2.sb ++ st2.wire = ['Q'] :=
  claim_C5 ["Host: x", "X-A: 1", "x-a: 2"] ['Q']
    ⟨[], encodeLines ["Host: x", "X-A: 1", "x-a: 2"] ++ '\r' :: '\n' :: ['Q'],
      0, false, []⟩ "X-A" (by decide) rfl rfl (by decide)

/-! ## Chunk-trailer lemmas -/

theorem findCRLF2_cons (c : Char) (t : List Char) :
    findCRLF2 (c :: t) = some 0 ∨
    findCRLF2 (c :: t) = (findCRLF2 t).map (· + 1) := by
  rw [findCRLF2.eq_def]
  split
  · exact Or.inl rfl
  · rename_i heq
    cases heq
    exact Or.inr rfl
  · rename_i heq
    exact absurd heq (by simp)

theorem findCRLF2_isSome (a b : List Char) :
    (findCRLF2 (a ++ '\r' :: '\n' :: '\r' :: '\n' :: b)).isSome = true := by
  induction a with
  | nil => rfl
  | cons c t ih =>
    rcases findCRLF2_cons c (t ++ '\r' :: '\n' :: '\r' :: '\n' :: b) with h | h
    · rw [List.cons_append, h]
      rfl
    · rw [List.cons_append, h]
      simpa using ih

theorem hasCRLF2_cons (c : Char) (t : List Char) (h : hasCRLF2 (c :: t) = true) :
    (∃ u, c :: t = '\r' :: '\n' :: '\r' :: '\n' :: u) ∨ hasCRLF2 t = true := by
  rw [hasCRLF2.eq_def] at h
  split at h
  · rename_i heq
    exact Or.inl ⟨_, heq⟩
  · rename_i heq
    cases heq
    exact Or.inr h
  · simp_all

theorem hasCRLF2_length (l : List Char) (h : hasCRLF2 l = true) :
    2 ≤ l.length := by
  induction l with
  | nil => simp [hasCRLF2] at h
  | cons c t ih =>
    rcases hasCRLF2_cons c t h with ⟨u, hu⟩ | h2
    · rw [hu]
      simp only [List.length_cons]
      omega
    · have := ih h2
      simp only [List.length_cons]
      omega

theorem take_drop_glue (C : List Char) (n : Nat) (h : 2 ≤ n) :
    (C.take n).drop 2 ++ C.drop n = C.drop 2 := by
  rw [List.drop_take]
  rw [show n = (n - 2) + 2 by omega]
  rw [show (n - 2) + 2 - 2 = n - 2 by omega]
  rw [show C.drop ((n - 2) + 2) = (C.drop 2).drop (n - 2) by
    rw [List.drop_drop]
    congr 1
    omega]
  exact List.take_append_drop _ _

theorem loadUntil2_spec (st : Exch) (a b : List Char)
    (hC : st.sb ++ st.wire = a ++ '\r' :: '\n' :: '\r' :: '\n' :: b) :
    ∃ st3, loadUntil2E st = some st3 ∧
      st3.sb.drop 2 ++ st3.wire = (st.sb ++ st.wire).drop 2 ∧
      st3.requestBytes = st.requestBytes ∧
      st3.chunksPending = st.chunksPending ∧
      st3.requestHeaders = st.requestHeaders := by
  unfold loadUntil2E
  by_cases hsb : hasCRLF2 st.sb = true
  · refine ⟨st, by simp [hsb], ?_, rfl, rfl, rfl⟩
    have h2 : 2 ≤ st.sb.length := hasCRLF2_length st.sb hsb
    rw [List.drop_append_of_le_length h2]
  · have hsome : (findCRLF2 (st.sb ++ st.wire)).isSome = true := by
      rw [hC]
      exact findCRLF2_isSome a b
    obtain ⟨i, hi⟩ := Option.isSome_iff_exists.mp hsome
    refine ⟨{ st with sb := (st.sb ++ st.wire).take (i + 4),
                      wire := (st.sb ++ st.wire).drop (i + 4) },
      by simp [hsb, hi], ?_, rfl, rfl, rfl⟩
    exact take_drop_glue (st.sb ++ st.wire) (i + 4) (by omega)

theorem crlf2_decomp (tls : List String) (rest : List Char) :
    ∃ a b, '\r' :: '\n' :: (encodeLines tls ++ '\r' :: '\n' :: rest) =
      a ++ '\r' :: '\n' :: '\r' :: '\n' :: b := by
  induction tls with
  | nil => exact ⟨[], rest, by simp [encodeLines]⟩
  | cons l ls ih =>
    obtain ⟨a, b, hab⟩ := ih
    refine ⟨'\r' :: '\n' :: l.data ++ a, b, ?_⟩
    have hL : '\r' :: '\n' :: (encodeLines (l :: ls) ++ '\r' :: '\n' :: rest) =
        ('\r' :: '\n' :: l.data) ++
          ('\r' :: '\n' :: (encodeLines ls ++ '\r' :: '\n' :: rest)) := by
      simp [encodeLines, encodeLine, List.append_assoc]
    rw [hL, hab]
    simp [List.append_assoc]

/-! ## Claim C4 (corrected) -/

/-- Claim C4, counterexample: parsing the terminating zero-length chunk
followed by the trailer `X-Foo: bar` inserts the trailer into the request
header map under its own name `X-Foo` — the key `"/X-Foo"` claimed by the
spec is absent. -/
theorem claim_C4_counterexample :
    (readChunkHeaderE ⟨[], "0\r\nX-Foo: bar\r\n\r\n".data, 0, true,
        []⟩).toOption.map
      (fun st2 => (findH st2.requestHeaders "/X-Foo",
                   findH st2.requestHeaders "X-Foo")) =
      some (none, some "bar") := by
  decide

/-- Claim C4, amended: for every chunked request, each trailer line
parsed after the terminating zero-length chunk is inserted into the
request header map under its own name, exactly as ordinary headers are
(the same `read_request_headers` insert-or-coalesce fold) — not under
`"/" + name`; in particular any key absent before and not
caseless-equal to a trailer name (such as a `"/"`-prefixed one) is still
absent afterwards. -/
theorem claim_C4 (st : Exch) (tls : List String) (rest : List Char)
    (hw : ∀ l ∈ tls, hasCRLF l.data = false ∧ l ≠ "" ∧
      (parseHeaderLine l).isSome = true)
    (hin : st.sb ++ st.wire =
      '0' :: '\r' :: '\n' :: (encodeLines tls ++ '\r' :: '\n' :: rest)) :
    ∃ st2, readChunkHeaderE st = .ok st2 ∧
      st2.requestHeaders =
        (tls.map (fun l => (lineKey l, lineVal l))).foldl coalesceStep
          st.requestHeaders ∧
      st2.chunksPending = false ∧
      st2.sb ++ st2.wire = rest ∧
      (∀ m, findH st.requestHeaders m = none →
        (∀ l ∈ tls, upKey (lineKey l) ≠ upKey m) →
        findH st2.requestHeaders m = none) := by
  have hin1 : st.sb ++ st.wire =
      ['0'] ++ '\r' :: '\n' :: (encodeLines tls ++ '\r' :: '\n' :: rest) := by
    simpa using hin
  obtain ⟨hg, hc⟩ := getLineE_append st ['0']
    (encodeLines tls ++ '\r' :: '\n' :: rest) hin1 rfl
  obtain ⟨hf1, hf2, hf3⟩ := consumeE_fields st (List.length ['0'] + 2)
  set st1 := consumeE st (List.length ['0'] + 2) with hst1
  set st2p : Exch :=
    { st1 with requestBytes := 0, chunksPending := false,
               sb := '\r' :: '\n' :: st1.sb } with hst2p
  have hcomb2 : st2p.sb ++ st2p.wire =
      '\r' :: '\n' :: (encodeLines tls ++ '\r' :: '\n' :: rest) := by
    show '\r' :: '\n' :: st1.sb ++ st1.wire = _
    rw [List.cons_append, List.cons_append, hc]
  obtain ⟨a, b, hab⟩ := crlf2_decomp tls rest
  obtain ⟨st3, hload, hdrop, hb1, hb2, hb3⟩ :=
    loadUntil2_spec st2p a b (by rw [hcomb2, hab])
  set st4 : Exch := { st3 with sb := st3.sb.drop 2 } with hst4
  have hcomb4 : st4.sb ++ st4.wire =
      encodeLines tls ++ '\r' :: '\n' :: rest := by
    show st3.sb.drop 2 ++ st3.wire = _
    rw [hdrop, hcomb2]
    rfl
  obtain ⟨st2, h1, h2, h3, h4, h5⟩ :=
    readHeadersGo_spec tls (totalLen st4 + 1) st4 rest hw hcomb4 (by omega)
  have hhdrs4 : st4.requestHeaders = st.requestHeaders := by
    show st3.requestHeaders = st.requestHeaders
    rw [hb3]
    exact hf3
  have hrun : readChunkHeaderE st = .ok st2 := by
    unfold readChunkHeaderE
    simp only [hg]
    rw [show parseHexSizeT (⟨['0']⟩ : String).data = some 0 from rfl]
    rw [← hst2p]
    simp only [hload]
    rw [← hst4]
    unfold readRequestHeadersE
    exact h1
  refine ⟨st2, hrun, ?_, ?_, h3, ?_⟩
  · rw [h2, hhdrs4]
  · rw [h5]
    show st3.chunksPending = false
    rw [hb2]
  · intro m hm hfresh
    rw [h2, hhdrs4, findH_fold, hm]
    have hval : valuesForKV (tls.map (fun l => (lineKey l, lineVal l))) m = [] := by
      unfold valuesForKV
      rw [List.filterMap_map]
      rw [List.filterMap_eq_nil_iff]
      intro l hl
      simp [hfresh l hl]
    rw [hval]

/-- Witness for C4: a zero chunk followed by one trailer line. -/
theorem claim_C4_witness :
    ∃ st2, readChunkHeaderE
        ⟨[], '0' :: '\r' :: '\n' ::
          (encodeLines ["X-Foo: bar"] ++ '\r' :: '\n' :: ['Q']), 0, true,
          []⟩ = .ok st2 ∧
      st2.requestHeaders =
        (["X-Foo: bar"].map (fun l => (lineKey l, lineVal l))).foldl
          coalesceStep [] ∧
      st2.chunksPending = false ∧
      st2.sb ++ st2.wire = ['Q'] ∧
      (∀ m, findH ([] : Headers) m = none →
        (∀ l ∈ ["X-Foo: bar"], upKey (lineKey l) ≠ upKey m) →
        findH st2.requestHeaders m = none) :=
  claim_C4 ⟨[], '0' :: '\r' :: '\n' ::
      (encodeLines ["X-Foo: bar"] ++ '\r' :: '\n' :: ['Q']), 0, true, []⟩
    ["X-Foo: bar"] ['Q'] (by decide) rfl

end Chunky
